import Mathlib

/-!
Verification of the offset-to-syntax resolution and token/list boundary-search
core (`src/services/utilities.ts`): `findListItemInfo`, `findContainingList`,
`findListItemIndexContainingPosition`, `getTokenAtPosition`, `getNodeAtPosition`,
`findTokenOnLeftOfPosition`, `findNextToken`, `findPrecedingToken`,
`nodeHasTokens`, `isToken`.

The tree model (`Node` with `kind`, `pos` = full start, `start` = rendered
start, `end`, `children`) is external to the source file and is modelled from
the specification's data model. Fallible behaviour (JavaScript property access
on `undefined`, `Debug.assert`) is modelled with `Except String`.
-/

set_option maxHeartbeats 1000000

namespace ts

/-- Modelled from the spec: the kind tag of a node distinguishes token kinds,
non-token composite kinds, the dedicated list-group kind (`SyntaxList`),
terminal placeholder kinds (`EndOfFileToken`, `OmittedExpression`, `Missing`),
plus the kinds named by the source (`SourceFile`, `ExpressionStatement`). -/
inductive SyntaxKind : Type where
| SourceFile : SyntaxKind
| ExpressionStatement : SyntaxKind
| SyntaxList : SyntaxKind
| EndOfFileToken : SyntaxKind
| OmittedExpression : SyntaxKind
| Missing : SyntaxKind
| Token : Nat → SyntaxKind
| Composite : Nat → SyntaxKind
deriving DecidableEq

/-- Modelled from the spec: a syntax-tree node exposes `kind`, `fullStart`
(called `pos` in the source), the rendered start (`getStart()`, here `start_`),
the exclusive end (`end`, here `endP`) and its ordered children
(`getChildren()`).  The parent association is passed explicitly where a source
function reads `node.parent`. -/
inductive Node : Type where
| mk : SyntaxKind → Int → Int → Int → List Node → Node

/-- `node.kind`. -/
def Node.kind : Node → SyntaxKind
| .mk k _ _ _ _ => k

/-- `node.pos` / `node.getFullStart()`: offset including leading trivia. -/
def Node.pos : Node → Int
| .mk _ p _ _ _ => p

/-- `node.getStart()`: offset of the first non-trivia content. -/
def Node.start_ : Node → Int
| .mk _ _ s _ _ => s

/-- `node.end` / `node.getEnd()`: exclusive end offset. -/
def Node.endP : Node → Int
| .mk _ _ _ e _ => e

/-- `node.getChildren()`: the ordered children. -/
def Node.children : Node → List Node
| .mk _ _ _ _ cs => cs

theorem Node.sizeOf_child_lt {c n : Node} (h : c ∈ n.children) :
    sizeOf c < sizeOf n := by
  cases n with
  | mk k p s e cs =>
    have h1 : sizeOf c < sizeOf cs :=
      List.sizeOf_lt_of_mem (by simpa [Node.children] using h)
    simp only [Node.mk.sizeOf_spec]
    omega

/-- Strong induction over the nested tree: to prove a property of every node
it suffices to prove it for a node assuming it for all its children. -/
def Node.strongInd {motive : Node → Prop}
    (ih : ∀ n : Node, (∀ c ∈ n.children, motive c) → motive n) :
    ∀ n, motive n
| n => ih n (fun c hc => Node.strongInd ih c)
termination_by n => sizeOf n
decreasing_by exact Node.sizeOf_child_lt hc

mutual

/-- Structural equality test on nodes. -/
def nodeBEq : Node → Node → Bool
| .mk k1 p1 s1 e1 cs1, .mk k2 p2 s2 e2 cs2 =>
    decide (k1 = k2) && decide (p1 = p2) && decide (s1 = s2) &&
    decide (e1 = e2) && nodeListBEq cs1 cs2

/-- Structural equality test on lists of nodes. -/
def nodeListBEq : List Node → List Node → Bool
| [], [] => true
| c :: cs, d :: ds => nodeBEq c d && nodeListBEq cs ds
| _, _ => false

end

theorem nodeListBEq_iff (cs : List Node)
    (ih : ∀ c ∈ cs, ∀ b, nodeBEq c b = true ↔ c = b) :
    ∀ ds, nodeListBEq cs ds = true ↔ cs = ds := by
  induction cs with
  | nil => intro ds; cases ds <;> simp [nodeListBEq]
  | cons c cs ihl =>
    intro ds
    cases ds with
    | nil => simp [nodeListBEq]
    | cons d ds =>
      have h1 := ih c (by simp)
      have h2 := ihl (fun x hx => ih x (by simp [hx])) ds
      simp [nodeListBEq, h1 d, h2]

theorem nodeBEq_iff : ∀ a b : Node, nodeBEq a b = true ↔ a = b := by
  intro a
  induction a using Node.strongInd with
  | _ a ih =>
    intro b
    cases a with
    | mk k p s e cs =>
      cases b with
      | mk k' p' s' e' cs' =>
        have hl := nodeListBEq_iff cs
          (fun c hc => ih c (by simpa [Node.children] using hc)) cs'
        simp [nodeBEq, hl, Node.mk.injEq, and_assoc]

instance : DecidableEq Node := fun a b =>
  decidable_of_iff (nodeBEq a b = true) (nodeBEq_iff a b)

instance {ε α : Type} [DecidableEq ε] [DecidableEq α] :
    DecidableEq (Except ε α) := fun a b =>
  match a, b with
  | .ok x, .ok y =>
      if h : x = y then .isTrue (by rw [h])
      else .isFalse (by intro hh; cases hh; exact h rfl)
  | .error x, .error y =>
      if h : x = y then .isTrue (by rw [h])
      else .isFalse (by intro hh; cases hh; exact h rfl)
  | .ok _, .error _ => .isFalse (by intro hh; cases hh)
  | .error _, .ok _ => .isFalse (by intro hh; cases hh)

/-- Source `isToken`: `n.kind >= SyntaxKind.FirstToken && n.kind <= SyntaxKind.LastToken`.
Modelled from the spec: the kinds in the token range are exactly the token
kinds (`Token _`), which the spec's data model keeps distinct from the
placeholder kinds (end-of-input marker, omitted/missing element) and from all
composite kinds. -/
def isTokenKind : SyntaxKind → Bool
| .Token _ => true
| _ => false

/-- Source `isToken(n)`. -/
def isToken (n : Node) : Bool := isTokenKind n.kind

/-- Source `nodeHasTokens`.  For an `ExpressionStatement` the source recurses
into `n.expression`; the expression is modelled as the statement's first child
(it precedes the optional semicolon token). -/
def nodeHasTokens : Node → Bool
| .mk .ExpressionStatement _ _ _ (e :: _) => nodeHasTokens e
| .mk .ExpressionStatement _ _ _ [] => false
| .mk .EndOfFileToken _ _ _ _ => false
| .mk .OmittedExpression _ _ _ _ => false
| .mk .Missing _ _ _ _ => false
| .mk .SyntaxList _ _ _ cs => decide (cs.length ≠ 0)
| .mk (.Token _) _ _ _ _ => true
| .mk (.Composite _) _ _ _ _ => true
| .mk .SourceFile _ _ _ _ => true

/-- Source `indexOf(array, value)` (scan for the first identical element,
`-1` if absent); JavaScript identity of immutable tree nodes is modelled by
structural equality. -/
def indexOfAux : List Node → Node → Int → Int
| [], _, _ => -1
| c :: cs, n, i => if c = n then i else indexOfAux cs n (i + 1)

def indexOf (xs : List Node) (n : Node) : Int := indexOfAux xs n 0

/-- Source `findContainingList(node)`.  The source reads
`node.parent.getChildren()`, so the (weak) parent association is passed
explicitly; when the node has no parent the property access crashes, modelled
as `.error`.  `forEach` returns the first child for which the callback
produces a value, or `undefined`. -/
def findContainingList (node : Node) (parent? : Option Node) :
    Except String (Option Node) :=
  match parent? with
  | none => .error "TypeError: node.parent is undefined"
  | some parent =>
      .ok (parent.children.find? (fun c =>
        decide (c.kind = SyntaxKind.SyntaxList) &&
        decide (c.pos ≤ node.pos) && decide (c.endP ≥ node.endP)))

/-- Source `findListItemInfo(node)`: result record `{listItemIndex, list}`. -/
structure ListItemInfo where
  listItemIndex : Int
  list : Node
deriving DecidableEq

/-- Source `findListItemInfo(node)`.  When `findContainingList` produced
`undefined`, the call `syntaxList.getChildren()` crashes, modelled as
`.error`. -/
def findListItemInfo (node : Node) (parent? : Option Node) :
    Except String ListItemInfo :=
  match findContainingList node parent? with
  | .error e => .error e
  | .ok none => .error "TypeError: syntaxList is undefined"
  | .ok (some syntaxList) =>
      .ok { listItemIndex := indexOf syntaxList.children node, list := syntaxList }

/-- The child scan of `findListItemIndexContainingPosition`:
first index `i` with `children[i].pos <= position && children[i].end > position`,
else `-1`. -/
def listIndexLoop : List Node → Int → Int → Int
| [], _, _ => -1
| c :: cs, position, i =>
    if c.pos ≤ position ∧ position < c.endP then i
    else listIndexLoop cs position (i + 1)

/-- Source `findListItemIndexContainingPosition(list, position)`;
`Debug.assert(list.kind === SyntaxKind.SyntaxList)` throws on failure,
modelled as `.error`. -/
def findListItemIndexContainingPosition (list : Node) (position : Int) :
    Except String Int :=
  if list.kind = SyntaxKind.SyntaxList then
    .ok (listIndexLoop list.children position 0)
  else .error "Debug.assert failed"

/-- Source `getTokenAtPosition(sourceFile, position)`: repeatedly descend into
the first child whose full span `[fullStart, end)` contains the position; stop
when no child matches. -/
def getTokenAtPosition (sourceFile : Node) (position : Int) : Node :=
  match h : sourceFile.children.find? (fun c =>
      decide (c.pos ≤ position) && decide (position < c.endP)) with
  | some child => getTokenAtPosition child position
  | none => sourceFile
termination_by sizeOf sourceFile
decreasing_by
  exact Node.sizeOf_child_lt (List.mem_of_find?_eq_some h)

/-- Source `getNodeAtPosition(sourceFile, position)`: identical descent with
the rendered containment test `child.getStart() <= position < child.getEnd()`. -/
def getNodeAtPosition (sourceFile : Node) (position : Int) : Node :=
  match h : sourceFile.children.find? (fun c =>
      decide (c.start_ ≤ position) && decide (position < c.endP)) with
  | some child => getNodeAtPosition child position
  | none => sourceFile
termination_by sizeOf sourceFile
decreasing_by
  exact Node.sizeOf_child_lt (List.mem_of_find?_eq_some h)

/-- Inner `find` of source `findNextToken(previousToken, parent)`: dive into
the first token-bearing child that either strictly encloses the previous token
or starts exactly at its end. -/
def nextFind (previousToken : Node) (n : Node) : Option Node :=
  if isToken n ∧ n.pos = previousToken.endP then some n
  else
    match h : n.children.find? (fun child =>
        (decide (child.pos ≤ previousToken.pos) && decide (child.endP > previousToken.endP) ||
         decide (child.pos = previousToken.endP)) && nodeHasTokens child) with
    | some child => nextFind previousToken child
    | none => none
termination_by sizeOf n
decreasing_by
  exact Node.sizeOf_child_lt (List.mem_of_find?_eq_some h)

/-- Source `findNextToken(previousToken, parent)`. -/
def findNextToken (previousToken parent : Node) : Option Node :=
  nextFind previousToken parent

/-- Source `findRightmostChildNodeWithTokens(children, exclusiveStartPosition)`:
scan indices `exclusiveStartPosition - 1 … 0` for the first child with
`nodeHasTokens`. -/
def findRightmostChildNodeWithTokens (children : List Node)
    (exclusiveStartPosition : Nat) : Option Node :=
  (children.take exclusiveStartPosition).reverse.find? nodeHasTokens

/-- Inner `findRightmostToken` of source `findPrecedingToken`. -/
def findRightmostToken (n : Node) : Option Node :=
  if isToken n then some n
  else
    match h : findRightmostChildNodeWithTokens n.children n.children.length with
    | some candidate => findRightmostToken candidate
    | none => none
termination_by sizeOf n
decreasing_by
  exact Node.sizeOf_child_lt
    (by
      have h1 := List.mem_of_find?_eq_some h
      rw [List.mem_reverse] at h1
      exact List.mem_of_mem_take h1)

/-- First element of a list satisfying `q`, together with the elements before
it and after it (the source iterates children with an index; the prefix is
what `findRightmostChildNodeWithTokens(children, i)` scans). -/
def splitFirst (q : Node → Bool) : List Node → Option (List Node × Node × List Node)
| [] => none
| c :: cs =>
    if q c then some ([], c, cs)
    else (splitFirst q cs).map (fun p => (c :: p.1, p.2.1, p.2.2))

theorem splitFirst_mem {q : Node → Bool} {cs before rest : List Node} {c : Node}
    (h : splitFirst q cs = some (before, c, rest)) : c ∈ cs := by
  induction cs generalizing before rest with
  | nil => simp [splitFirst] at h
  | cons x xs ih =>
    simp only [splitFirst] at h
    by_cases hq : q x
    · rw [if_pos hq] at h
      cases h
      exact List.Mem.head _
    · rw [if_neg hq] at h
      cases hsp : splitFirst q xs with
      | none => rw [hsp] at h; simp at h
      | some p =>
        obtain ⟨b, c', r⟩ := p
        rw [hsp] at h
        simp only [Option.map] at h
        cases h
        exact List.mem_cons_of_mem _ (ih hsp)

/-- Inner `find` of source `findPrecedingToken`.  The loop body runs, for the
first child with `nodeHasTokens(child)` and `position < child.end`, either the
right-to-left sibling search (when `child.getStart() >= position`) or the
recursion into the child; when no child qualifies, `Debug.assert` demands a
`SourceFile` (modelled as `.error` on failure) and the rightmost token of the
whole child list is taken. -/
def precFind (position : Int) (n : Node) : Except String (Option Node) :=
  if isToken n then .ok (some n)
  else
    match h : splitFirst (fun child =>
        nodeHasTokens child && decide (position < child.endP)) n.children with
    | some (before, child, _) =>
        if child.start_ ≥ position then
          .ok ((before.reverse.find? nodeHasTokens).bind findRightmostToken)
        else precFind position child
    | none =>
        if n.kind = SyntaxKind.SourceFile then
          .ok ((n.children.reverse.find? nodeHasTokens).bind findRightmostToken)
        else .error "Debug.assert failed"
termination_by sizeOf n
decreasing_by
  exact Node.sizeOf_child_lt (by
    have h1 := splitFirst_mem h
    exact h1)

/-- Source `findPrecedingToken(position, sourceFile)`. -/
def findPrecedingToken (position : Int) (sourceFile : Node) :
    Except String (Option Node) :=
  precFind position sourceFile

/-- Source `findTokenOnLeftOfPosition(file, position)`. -/
def findTokenOnLeftOfPosition (file : Node) (position : Int) :
    Except String (Option Node) :=
  let tokenAtPosition := getTokenAtPosition file position
  if isToken tokenAtPosition ∧ tokenAtPosition.start_ < position ∧
      position < tokenAtPosition.endP then
    .ok (some tokenAtPosition)
  else findPrecedingToken position file

/-! ## Specification model: tokens, tiling, well-formedness -/

mutual

/-- The tokens of a subtree in document order (`n` itself when it is a token;
placeholder leaves contribute none). -/
def tokenList : Node → List Node
| .mk k p s e cs =>
    if isTokenKind k then [.mk k p s e cs] else tokenListL cs

/-- Concatenated tokens of a list of subtrees. -/
def tokenListL : List Node → List Node
| [] => []
| c :: cs => tokenList c ++ tokenListL cs

end

/-- `tilesB lo hi xs`: the full spans `[pos, end)` of `xs` tile the interval
`[lo, hi)` exactly: the first span starts at `lo`, consecutive spans are
adjacent, and the last one ends at `hi`. -/
def tilesB : Int → Int → List Node → Bool
| lo, hi, [] => decide (lo = hi)
| lo, hi, c :: cs => decide (c.pos = lo) && tilesB c.endP hi cs

mutual

/-- Modelled from the spec: well-formedness of a tree, the invariants the
spec states the external builder enforces and this core relies upon:
`fullStart <= start <= end`; children position-sorted, non-overlapping and
(per the trivia-attachment invariant, every character is covered by some
token's full span) tiling the parent's full span exactly; every leaf either a
token kind or a zero-full-width placeholder; token leaves childless with
non-empty rendered text; `getStart()` equal to the first token's rendered
start (`fullStart` when the subtree has no token); and the `nodeHasTokens`
pruning test accurate, i.e. true exactly on subtrees containing a token. -/
def wfB : Node → Bool
| .mk k p s e cs =>
    decide (p ≤ s) && decide (s ≤ e) &&
    (nodeHasTokens (.mk k p s e cs) == !(tokenList (.mk k p s e cs)).isEmpty) &&
    (match tokenList (.mk k p s e cs) with
     | [] => decide (s = p) && decide (p = e)
     | t :: _ => decide (s = t.start_)) &&
    (if isTokenKind k then cs.isEmpty && decide (s < e)
     else tilesB p e cs) &&
    wfL cs

/-- All members of a list of subtrees are well-formed. -/
def wfL : List Node → Bool
| [] => true
| c :: cs => wfB c && wfL cs

end

/-- `Descendant t n`: `t` is `n` itself or a node of the subtree rooted at
`n` (reflexive-transitive closure of the child relation). -/
inductive Descendant : Node → Node → Prop where
| refl (n : Node) : Descendant n n
| child {t c n : Node} : c ∈ n.children → Descendant t c → Descendant t n

/-! ## Basic lemmas -/

@[simp] theorem kind_mk {k p s e cs} : (Node.mk k p s e cs).kind = k := rfl
@[simp] theorem pos_mk {k p s e cs} : (Node.mk k p s e cs).pos = p := rfl
@[simp] theorem start_mk {k p s e cs} : (Node.mk k p s e cs).start_ = s := rfl
@[simp] theorem endP_mk {k p s e cs} : (Node.mk k p s e cs).endP = e := rfl
@[simp] theorem children_mk {k p s e cs} : (Node.mk k p s e cs).children = cs := rfl

theorem wfL_iff {cs : List Node} : wfL cs = true ↔ ∀ c ∈ cs, wfB c = true := by
  induction cs with
  | nil => simp [wfL]
  | cons c cs ih => simp [wfL, ih]

theorem wfB_parts {n : Node} (hw : wfB n = true) :
    (n.pos ≤ n.start_ ∧ n.start_ ≤ n.endP) ∧
    (nodeHasTokens n = true ↔ tokenList n ≠ []) ∧
    (∀ t ts, tokenList n = t :: ts → n.start_ = t.start_) ∧
    (tokenList n = [] → n.start_ = n.pos ∧ n.pos = n.endP) ∧
    (isToken n = true → n.children = [] ∧ n.start_ < n.endP) ∧
    (isToken n = false → tilesB n.pos n.endP n.children = true) ∧
    wfL n.children = true := by
  cases n with
  | mk k p s e cs =>
    simp only [wfB, Bool.and_eq_true, decide_eq_true_eq, beq_iff_eq] at hw
    obtain ⟨⟨⟨⟨⟨h1, h2⟩, h3⟩, h4⟩, h5⟩, h6⟩ := hw
    refine ⟨⟨by simpa using h1, by simpa using h2⟩, ?_, ?_, ?_, ?_, ?_, by simpa using h6⟩
    · rw [h3]
      simp
    · intro t ts hts
      rw [hts] at h4
      simpa using h4
    · intro hts
      rw [hts] at h4
      simp at h4
      simpa using h4
    · intro ht
      simp only [isToken, kind_mk] at ht
      rw [if_pos ht] at h5
      simp at h5
      simpa using h5
    · intro ht
      simp only [isToken, kind_mk] at ht
      rw [if_neg (by simp [ht])] at h5
      simpa using h5

theorem wf_child {n c : Node} (hw : wfB n = true) (hc : c ∈ n.children) :
    wfB c = true :=
  (wfL_iff.mp (wfB_parts hw).2.2.2.2.2.2) c hc

theorem wf_pos_start {n : Node} (hw : wfB n = true) : n.pos ≤ n.start_ :=
  (wfB_parts hw).1.1

theorem wf_start_end {n : Node} (hw : wfB n = true) : n.start_ ≤ n.endP :=
  (wfB_parts hw).1.2

theorem wf_pos_end {n : Node} (hw : wfB n = true) : n.pos ≤ n.endP :=
  le_trans (wf_pos_start hw) (wf_start_end hw)

theorem wf_hasTokens_iff {n : Node} (hw : wfB n = true) :
    nodeHasTokens n = true ↔ tokenList n ≠ [] :=
  (wfB_parts hw).2.1

theorem wf_start_eq_head {n t : Node} {ts : List Node} (hw : wfB n = true)
    (h : tokenList n = t :: ts) : n.start_ = t.start_ :=
  (wfB_parts hw).2.2.1 t ts h

theorem wf_tokenless {n : Node} (hw : wfB n = true) (h : tokenList n = []) :
    n.start_ = n.pos ∧ n.pos = n.endP :=
  (wfB_parts hw).2.2.2.1 h

theorem wf_token_leaf {n : Node} (hw : wfB n = true) (ht : isToken n = true) :
    n.children = [] ∧ n.start_ < n.endP :=
  (wfB_parts hw).2.2.2.2.1 ht

theorem wf_tiles {n : Node} (hw : wfB n = true) (ht : isToken n = false) :
    tilesB n.pos n.endP n.children = true :=
  (wfB_parts hw).2.2.2.2.2.1 ht

theorem splitFirst_spec {q : Node → Bool} {cs b a : List Node} {c : Node}
    (h : splitFirst q cs = some (b, c, a)) :
    cs = b ++ c :: a ∧ q c = true ∧ ∀ x ∈ b, q x = false := by
  induction cs generalizing b a with
  | nil => simp [splitFirst] at h
  | cons x xs ih =>
    simp only [splitFirst] at h
    by_cases hq : q x
    · rw [if_pos hq] at h
      cases h
      exact ⟨rfl, hq, by simp⟩
    · rw [if_neg hq] at h
      cases hsp : splitFirst q xs with
      | none => rw [hsp] at h; simp at h
      | some p =>
        obtain ⟨b', c', a'⟩ := p
        rw [hsp] at h
        simp only [Option.map] at h
        cases h
        obtain ⟨he, hqc, hb⟩ := ih hsp
        refine ⟨by simp [he], hqc, ?_⟩
        intro y hy
        simp only [Bool.not_eq_true] at hq
        rcases List.mem_cons.mp hy with hy | hy
        · rw [hy]; exact hq
        · exact hb y hy

theorem splitFirst_none {q : Node → Bool} {cs : List Node}
    (h : splitFirst q cs = none) : ∀ x ∈ cs, q x = false := by
  induction cs with
  | nil => simp
  | cons x xs ih =>
    simp only [splitFirst] at h
    by_cases hq : q x
    · rw [if_pos hq] at h; simp at h
    · rw [if_neg hq] at h
      intro y hy
      simp only [Bool.not_eq_true] at hq
      rcases List.mem_cons.mp hy with hy | hy
      · rw [hy]; exact hq
      · cases hsp : splitFirst q xs with
        | none => exact ih hsp y hy
        | some p => rw [hsp] at h; simp at h

theorem find?_of_split {q : Node → Bool} {b a : List Node} {c : Node}
    (hq : q c = true) (hb : ∀ x ∈ b, q x = false) :
    (b ++ c :: a).find? q = some c := by
  induction b with
  | nil => simp [List.find?, hq]
  | cons x xs ih =>
    have hx : q x = false := hb x (by simp)
    simp only [List.cons_append, List.find?, hx]
    exact ih (fun y hy => hb y (by simp [hy]))

/-! ## Tiling lemmas -/

theorem tiles_append_intro {lo mid hi : Int} {xs ys : List Node}
    (h1 : tilesB lo mid xs = true) (h2 : tilesB mid hi ys = true) :
    tilesB lo hi (xs ++ ys) = true := by
  induction xs generalizing lo with
  | nil =>
    simp only [tilesB, decide_eq_true_eq] at h1
    simpa [h1] using h2
  | cons x xs ih =>
    simp only [tilesB, Bool.and_eq_true, decide_eq_true_eq] at h1 ⊢
    exact ⟨h1.1, ih h1.2⟩

theorem tiles_append_split {lo hi : Int} {xs ys : List Node}
    (h : tilesB lo hi (xs ++ ys) = true) :
    ∃ mid, tilesB lo mid xs = true ∧ tilesB mid hi ys = true := by
  induction xs generalizing lo with
  | nil => exact ⟨lo, by simp [tilesB], by simpa using h⟩
  | cons x xs ih =>
    simp only [List.cons_append, tilesB, Bool.and_eq_true, decide_eq_true_eq] at h
    obtain ⟨mid, hm1, hm2⟩ := ih h.2
    exact ⟨mid, by simp [tilesB, h.1, hm1], hm2⟩

theorem tiles_le {lo hi : Int} {cs : List Node} (h : tilesB lo hi cs = true)
    (hpe : ∀ c ∈ cs, c.pos ≤ c.endP) : lo ≤ hi := by
  induction cs generalizing lo with
  | nil => simp only [tilesB, decide_eq_true_eq] at h; omega
  | cons c cs ih =>
    simp only [tilesB, Bool.and_eq_true, decide_eq_true_eq] at h
    have h1 := hpe c (by simp)
    have h2 := ih h.2 (fun x hx => hpe x (by simp [hx]))
    omega

theorem tiles_mem_bounds {lo hi : Int} {cs : List Node}
    (h : tilesB lo hi cs = true) (hpe : ∀ c ∈ cs, c.pos ≤ c.endP) :
    ∀ c ∈ cs, lo ≤ c.pos ∧ c.endP ≤ hi := by
  induction cs generalizing lo with
  | nil => simp
  | cons x xs ih =>
    simp only [tilesB, Bool.and_eq_true, decide_eq_true_eq] at h
    intro c hc
    rcases List.mem_cons.mp hc with hc | hc
    · subst hc
      have := tiles_le h.2 (fun y hy => hpe y (by simp [hy]))
      exact ⟨by omega, by omega⟩
    · have := ih h.2 (fun y hy => hpe y (by simp [hy])) c hc
      have hx := hpe x (by simp)
      exact ⟨by omega, this.2⟩

theorem tiles_split_bounds {lo hi : Int} {b a : List Node} {c : Node}
    (h : tilesB lo hi (b ++ c :: a) = true)
    (hpe : ∀ x ∈ b ++ c :: a, x.pos ≤ x.endP) :
    lo ≤ c.pos ∧ (∀ x ∈ b, x.endP ≤ c.pos) ∧ c.endP ≤ hi ∧
      (∀ y ∈ a, c.endP ≤ y.pos) := by
  obtain ⟨mid, hm1, hm2⟩ := tiles_append_split h
  simp only [tilesB, Bool.and_eq_true, decide_eq_true_eq] at hm2
  have hpb : ∀ x ∈ b, x.pos ≤ x.endP := fun x hx => hpe x (by simp [hx])
  have hpa : ∀ y ∈ a, y.pos ≤ y.endP := fun y hy => hpe y (by simp [hy])
  refine ⟨?_, ?_, ?_, ?_⟩
  · have := tiles_le hm1 hpb
    omega
  · intro x hx
    have := (tiles_mem_bounds hm1 hpb) x hx
    omega
  · have := tiles_mem_bounds hm2.2 hpa
    have := tiles_le hm2.2 hpa
    omega
  · intro y hy
    exact ((tiles_mem_bounds hm2.2 hpa) y hy).1

theorem tiles_cover {lo hi p : Int} {cs : List Node}
    (h : tilesB lo hi cs = true) (hpe : ∀ c ∈ cs, c.pos ≤ c.endP)
    (hp1 : lo ≤ p) (hp2 : p < hi) :
    ∃ b c a, cs = b ++ c :: a ∧ c.pos ≤ p ∧ p < c.endP ∧
      ∀ x ∈ b, x.endP ≤ p := by
  induction cs generalizing lo with
  | nil => simp only [tilesB, decide_eq_true_eq] at h; omega
  | cons x xs ih =>
    simp only [tilesB, Bool.and_eq_true, decide_eq_true_eq] at h
    by_cases hx : p < x.endP
    · exact ⟨[], x, xs, rfl, by omega, hx, by simp⟩
    · obtain ⟨b, c, a, he, hc1, hc2, hb⟩ :=
        ih h.2 (fun y hy => hpe y (by simp [hy])) (by omega)
      refine ⟨x :: b, c, a, by simp [he], hc1, hc2, ?_⟩
      intro y hy
      rcases List.mem_cons.mp hy with hy | hy
      · rw [hy]; omega
      · exact hb y hy

theorem tiles_zero {lo hi : Int} {cs : List Node} (h : tilesB lo hi cs = true)
    (hz : ∀ c ∈ cs, c.pos = c.endP) : lo = hi := by
  induction cs generalizing lo with
  | nil => simpa [tilesB] using h
  | cons x xs ih =>
    simp only [tilesB, Bool.and_eq_true, decide_eq_true_eq] at h
    have h1 := hz x (by simp)
    have h2 := ih h.2 (fun y hy => hz y (by simp [hy]))
    omega

theorem tiles_getLast {lo hi : Int} {cs : List Node} {c : Node}
    (h : tilesB lo hi cs = true) (hc : cs.getLast? = some c) : c.endP = hi := by
  induction cs generalizing lo with
  | nil => simp at hc
  | cons x xs ih =>
    simp only [tilesB, Bool.and_eq_true, decide_eq_true_eq] at h
    cases xs with
    | nil =>
      simp only [List.getLast?_singleton, Option.some.injEq] at hc
      subst hc
      simpa [tilesB] using h.2
    | cons y ys =>
      rw [List.getLast?_cons_cons] at hc
      exact ih h.2 hc

/-! ## Token-list lemmas -/

theorem tokenList_token {n : Node} (ht : isToken n = true) : tokenList n = [n] := by
  cases n with
  | mk k p s e cs =>
    simp only [isToken, kind_mk] at ht
    simp [tokenList, ht]

theorem tokenList_comp {n : Node} (ht : isToken n = false) :
    tokenList n = tokenListL n.children := by
  cases n with
  | mk k p s e cs =>
    simp only [isToken, kind_mk] at ht
    simp [tokenList, ht]

theorem tokenListL_append {xs ys : List Node} :
    tokenListL (xs ++ ys) = tokenListL xs ++ tokenListL ys := by
  induction xs with
  | nil => simp [tokenListL]
  | cons x xs ih => simp [tokenListL, ih]

theorem mem_tokenListL {t : Node} {cs : List Node} :
    t ∈ tokenListL cs ↔ ∃ c ∈ cs, t ∈ tokenList c := by
  induction cs with
  | nil => simp [tokenListL]
  | cons c cs ih =>
    simp only [tokenListL, List.mem_append, ih]
    constructor
    · rintro (h | ⟨c', hc', ht'⟩)
      · exact ⟨c, by simp, h⟩
      · exact ⟨c', by simp [hc'], ht'⟩
    · rintro ⟨c', hc', ht'⟩
      rcases List.mem_cons.mp hc' with hc' | hc'
      · exact Or.inl (hc' ▸ ht')
      · exact Or.inr ⟨c', hc', ht'⟩

theorem tokens_wf {n : Node} (hw : wfB n = true) :
    ∀ t ∈ tokenList n, wfB t = true ∧ isToken t = true := by
  induction n using Node.strongInd with
  | _ n ih =>
    intro t ht
    by_cases htk : isToken n
    · rw [tokenList_token htk] at ht
      simp only [List.mem_singleton] at ht
      subst ht
      exact ⟨hw, htk⟩
    · rw [tokenList_comp (by simpa using htk)] at ht
      obtain ⟨c, hc, htc⟩ := mem_tokenListL.mp ht
      exact ih c hc (wf_child hw hc) t htc

theorem tokensL_tile : ∀ (cs : List Node) (lo hi : Int),
    (∀ c ∈ cs, tilesB c.pos c.endP (tokenList c) = true) →
    tilesB lo hi cs = true → tilesB lo hi (tokenListL cs) = true := by
  intro cs
  induction cs with
  | nil =>
    intro lo hi _ h
    simpa [tokenListL, tilesB] using h
  | cons c cs ih =>
    intro lo hi hts h
    simp only [tilesB, Bool.and_eq_true, decide_eq_true_eq] at h
    have h1 := hts c (by simp)
    rw [h.1] at h1
    have h2 := ih c.endP hi (fun x hx => hts x (by simp [hx])) h.2
    simpa [tokenListL] using tiles_append_intro h1 h2

theorem tokens_tile {n : Node} (hw : wfB n = true) :
    tilesB n.pos n.endP (tokenList n) = true := by
  induction n using Node.strongInd with
  | _ n ih =>
    by_cases htk : isToken n
    · rw [tokenList_token htk]
      simp [tilesB]
    · rw [tokenList_comp (by simpa using htk)]
      exact tokensL_tile n.children n.pos n.endP
        (fun c hc => ih c hc (wf_child hw hc))
        (wf_tiles hw (by simpa using htk))

theorem tokens_pe {n : Node} (hw : wfB n = true) :
    ∀ t ∈ tokenList n, t.pos ≤ t.endP := fun t ht =>
  wf_pos_end (tokens_wf hw t ht).1

theorem token_bounds {n t : Node} (hw : wfB n = true) (ht : t ∈ tokenList n) :
    n.pos ≤ t.pos ∧ t.endP ≤ n.endP :=
  tiles_mem_bounds (tokens_tile hw) (tokens_pe hw) t ht

theorem tokens_head_pos {n t : Node} {ts : List Node} (hw : wfB n = true)
    (h : tokenList n = t :: ts) : t.pos = n.pos := by
  have := tokens_tile hw
  rw [h] at this
  simp only [tilesB, Bool.and_eq_true, decide_eq_true_eq] at this
  exact this.1

theorem token_start_lb {n t : Node} (hw : wfB n = true)
    (ht : t ∈ tokenList n) : n.start_ ≤ t.start_ := by
  cases hts : tokenList n with
  | nil => rw [hts] at ht; simp at ht
  | cons t0 ts =>
    have hh := wf_start_eq_head hw hts
    rw [hts] at ht
    rcases List.mem_cons.mp ht with he | hmem
    · rw [hh, he]
    · -- t is a later token: its pos is at least t0's end, which exceeds t0's start
      have htile := tokens_tile hw
      rw [hts] at htile
      simp only [tilesB, Bool.and_eq_true, decide_eq_true_eq] at htile
      have hbd := tiles_mem_bounds htile.2
        (fun x hx => tokens_pe hw x (by rw [hts]; exact List.mem_cons_of_mem _ hx)) t hmem
      have h0 : wfB t0 = true ∧ isToken t0 = true :=
        tokens_wf hw t0 (by rw [hts]; exact List.Mem.head _)
      have h1 : t0.start_ < t0.endP := (wf_token_leaf h0.1 h0.2).2
      have h2 : wfB t = true :=
        (tokens_wf hw t (by rw [hts]; exact List.mem_cons_of_mem _ hmem)).1
      have h3 := wf_pos_start h2
      omega

theorem desc_wf {t n : Node} (hw : wfB n = true) (hd : Descendant t n) :
    wfB t = true := by
  induction hd with
  | refl => exact hw
  | child hc _ ih => exact ih (wf_child hw hc)

theorem desc_bounds {t n : Node} (hw : wfB n = true) (hd : Descendant t n) :
    n.pos ≤ t.pos ∧ t.endP ≤ n.endP := by
  induction hd with
  | refl => exact ⟨le_refl _, le_refl _⟩
  | child hc hd ih =>
    rename_i c m
    have hcw := wf_child hw hc
    have h1 := ih hcw
    by_cases htk : isToken m
    · -- a token has no children
      have := (wf_token_leaf hw htk).1
      rw [this] at hc
      simp at hc
    · have htile := wf_tiles hw (by simpa using htk)
      have hbd := tiles_mem_bounds htile
        (fun x hx => wf_pos_end (wf_child hw hx)) _ hc
      exact ⟨le_trans hbd.1 h1.1, le_trans h1.2 hbd.2⟩

theorem desc_token_mem {t n : Node} (hw : wfB n = true) (hd : Descendant t n)
    (ht : isToken t = true) : t ∈ tokenList n := by
  induction hd with
  | refl => simp [tokenList_token ht]
  | child hc hd ih =>
    rename_i c m
    by_cases htk : isToken m
    · have := (wf_token_leaf hw htk).1
      rw [this] at hc
      simp at hc
    · rw [tokenList_comp (by simpa using htk)]
      exact mem_tokenListL.mpr ⟨c, hc, ih (wf_child hw hc)⟩

theorem hasTokens_of_token {t : Node} (ht : isToken t = true) :
    nodeHasTokens t = true := by
  cases t with
  | mk k p s e cs =>
    simp only [isToken, kind_mk] at ht
    cases k <;> simp_all [isTokenKind, nodeHasTokens]

theorem tokenless_zero {n : Node} (hw : wfB n = true) (h : tokenList n = []) :
    n.pos = n.endP := (wf_tokenless hw h).2

/-! ## Position-resolver descent lemmas -/

theorem getTokenAtPosition_some {n c : Node} {p : Int}
    (hf : n.children.find? (fun x => decide (x.pos ≤ p) && decide (p < x.endP)) =
      some c) :
    getTokenAtPosition n p = getTokenAtPosition c p := by
  rw [getTokenAtPosition]
  split
  · rename_i child heq
    rw [hf] at heq
    cases heq
    rfl
  · rename_i heq
    rw [hf] at heq
    cases heq

theorem getTokenAtPosition_none {n : Node} {p : Int}
    (hf : n.children.find? (fun x => decide (x.pos ≤ p) && decide (p < x.endP)) =
      none) :
    getTokenAtPosition n p = n := by
  rw [getTokenAtPosition]
  split
  · rename_i child heq
    rw [hf] at heq
    cases heq
  · rfl

theorem getNodeAtPosition_some {n c : Node} {p : Int}
    (hf : n.children.find? (fun x => decide (x.start_ ≤ p) && decide (p < x.endP)) =
      some c) :
    getNodeAtPosition n p = getNodeAtPosition c p := by
  rw [getNodeAtPosition]
  split
  · rename_i child heq
    rw [hf] at heq
    cases heq
    rfl
  · rename_i heq
    rw [hf] at heq
    cases heq

theorem getNodeAtPosition_none {n : Node} {p : Int}
    (hf : n.children.find? (fun x => decide (x.start_ ≤ p) && decide (p < x.endP)) =
      none) :
    getNodeAtPosition n p = n := by
  rw [getNodeAtPosition]
  split
  · rename_i child heq
    rw [hf] at heq
    cases heq
  · rfl

theorem desc_find_full {t n : Node} {p : Int} (hd : Descendant t n)
    (hw : wfB n = true) (ht : isToken t = true) (hp1 : t.pos ≤ p)
    (hp2 : p < t.endP) : getTokenAtPosition n p = t := by
  induction hd with
  | refl =>
    have hch := (wf_token_leaf hw ht).1
    exact getTokenAtPosition_none (by rw [hch]; rfl)
  | child hc hd ih =>
    rename_i c m
    have hcw := wf_child hw hc
    have hcb := desc_bounds hcw hd
    have hmt : isToken m = false := by
      by_cases hmt : isToken m
      · have := (wf_token_leaf hw hmt).1
        rw [this] at hc
        simp at hc
      · simpa using hmt
    obtain ⟨b, a, he⟩ := List.append_of_mem hc
    have htile := wf_tiles hw hmt
    rw [he] at htile
    have hsb := tiles_split_bounds htile
      (fun x hx => wf_pos_end (wf_child hw (by rw [he]; exact hx)))
    have hfind : m.children.find?
        (fun x => decide (x.pos ≤ p) && decide (p < x.endP)) = some c := by
      rw [he]
      apply find?_of_split
      · simp only [Bool.and_eq_true, decide_eq_true_eq]
        exact ⟨le_trans hcb.1 hp1, lt_of_lt_of_le hp2 hcb.2⟩
      · intro x hx
        have hxe := hsb.2.1 x hx
        simp only [Bool.and_eq_true, decide_eq_true_eq, Bool.and_eq_false_iff,
          decide_eq_false_iff_not]
        right
        have : c.pos ≤ p := le_trans hcb.1 hp1
        omega
    rw [getTokenAtPosition_some hfind]
    exact ih hcw

theorem full_res_token {n : Node} (hw : wfB n = true) :
    ∀ p : Int, n.pos ≤ p → p < n.endP →
    isToken (getTokenAtPosition n p) = true := by
  induction n using Node.strongInd with
  | _ n ih =>
    intro p hp1 hp2
    by_cases htk : isToken n
    · rw [getTokenAtPosition_none (by rw [(wf_token_leaf hw htk).1]; rfl)]
      exact htk
    · have htile := wf_tiles hw (by simpa using htk)
      obtain ⟨b, c, a, he, h1, h2, hb⟩ := tiles_cover htile
        (fun x hx => wf_pos_end (wf_child hw hx)) hp1 hp2
      have hfind : n.children.find?
          (fun x => decide (x.pos ≤ p) && decide (p < x.endP)) = some c := by
        rw [he]
        apply find?_of_split
        · simp only [Bool.and_eq_true, decide_eq_true_eq]
          exact ⟨h1, h2⟩
        · intro x hx
          have := hb x hx
          simp only [Bool.and_eq_false_iff, decide_eq_false_iff_not]
          right
          omega
      rw [getTokenAtPosition_some hfind]
      have hcmem : c ∈ n.children := by rw [he]; simp
      exact ih c hcmem (wf_child hw hcmem) p h1 h2

theorem desc_find_rendered {t n : Node} {p : Int} (hd : Descendant t n)
    (hw : wfB n = true) (ht : isToken t = true) (hp1 : t.start_ ≤ p)
    (hp2 : p < t.endP) : getNodeAtPosition n p = t := by
  induction hd with
  | refl =>
    exact getNodeAtPosition_none (by rw [(wf_token_leaf hw ht).1]; rfl)
  | child hc hd ih =>
    rename_i c m
    have hcw := wf_child hw hc
    have hcb := desc_bounds hcw hd
    have hcs : c.start_ ≤ t.start_ := token_start_lb hcw (desc_token_mem hcw hd ht)
    have hmt : isToken m = false := by
      by_cases hmt : isToken m
      · have := (wf_token_leaf hw hmt).1
        rw [this] at hc
        simp at hc
      · simpa using hmt
    obtain ⟨b, a, he⟩ := List.append_of_mem hc
    have htile := wf_tiles hw hmt
    rw [he] at htile
    have hsb := tiles_split_bounds htile
      (fun x hx => wf_pos_end (wf_child hw (by rw [he]; exact hx)))
    have hfind : m.children.find?
        (fun x => decide (x.start_ ≤ p) && decide (p < x.endP)) = some c := by
      rw [he]
      apply find?_of_split
      · simp only [Bool.and_eq_true, decide_eq_true_eq]
        exact ⟨le_trans hcs hp1, lt_of_lt_of_le hp2 hcb.2⟩
      · intro x hx
        have hxe := hsb.2.1 x hx
        have hps := wf_pos_start hcw
        simp only [Bool.and_eq_false_iff, decide_eq_false_iff_not]
        right
        have : c.start_ ≤ p := le_trans hcs hp1
        omega
    rw [getNodeAtPosition_some hfind]
    exact ih hcw

/-! ## Rightmost-token lemmas -/

theorem splitLast {q : Node → Bool} {cs : List Node}
    (h : ∃ c ∈ cs, q c = true) :
    ∃ b c a, cs = b ++ c :: a ∧ q c = true ∧ ∀ x ∈ a, q x = false := by
  induction cs with
  | nil => simp at h
  | cons x xs ih =>
    by_cases hex : ∃ c ∈ xs, q c = true
    · obtain ⟨b, c, a, he, hq, ha⟩ := ih hex
      exact ⟨x :: b, c, a, by simp [he], hq, ha⟩
    · obtain ⟨c, hc, hq⟩ := h
      rcases List.mem_cons.mp hc with hc | hc
      · refine ⟨[], x, xs, rfl, hc ▸ hq, ?_⟩
        intro y hy
        by_cases hqy : q y = true
        · exact absurd ⟨y, hy, hqy⟩ hex
        · simpa using hqy
      · exact absurd ⟨c, hc, hq⟩ hex

theorem reverse_find?_of_split {q : Node → Bool} {b a : List Node} {c : Node}
    (hq : q c = true) (ha : ∀ x ∈ a, q x = false) :
    (b ++ c :: a).reverse.find? q = some c := by
  have : (b ++ c :: a).reverse = a.reverse ++ c :: b.reverse := by
    simp
  rw [this]
  exact find?_of_split hq (fun x hx => ha x (List.mem_reverse.mp hx))

theorem tokensL_nil {cs : List Node} (h : ∀ c ∈ cs, tokenList c = []) :
    tokenListL cs = [] := by
  induction cs with
  | nil => rfl
  | cons c cs ih =>
    simp only [tokenListL, List.append_eq_nil]
    exact ⟨h c (by simp), ih (fun x hx => h x (by simp [hx]))⟩

theorem findRightmostToken_token {n : Node} (ht : isToken n = true) :
    findRightmostToken n = some n := by
  rw [findRightmostToken, if_pos ht]

theorem findRightmostToken_comp_some {n c : Node} (ht : isToken n = false)
    (hf : n.children.reverse.find? nodeHasTokens = some c) :
    findRightmostToken n = findRightmostToken c := by
  rw [findRightmostToken, if_neg (by simp [ht])]
  split
  · rename_i cand heq
    rw [findRightmostChildNodeWithTokens, List.take_length, hf] at heq
    cases heq
    rfl
  · rename_i heq
    rw [findRightmostChildNodeWithTokens, List.take_length, hf] at heq
    cases heq

theorem findRightmostToken_comp_none {n : Node} (ht : isToken n = false)
    (hf : n.children.reverse.find? nodeHasTokens = none) :
    findRightmostToken n = none := by
  rw [findRightmostToken, if_neg (by simp [ht])]
  split
  · rename_i cand heq
    rw [findRightmostChildNodeWithTokens, List.take_length, hf] at heq
    cases heq
  · rfl

theorem rightmost_spec {n : Node} (hw : wfB n = true) :
    findRightmostToken n = (tokenList n).getLast? := by
  induction n using Node.strongInd with
  | _ n ih =>
    by_cases htk : isToken n
    · rw [tokenList_token htk, findRightmostToken_token htk]
      rfl
    · have htk' : isToken n = false := by simpa using htk
      rw [tokenList_comp htk']
      by_cases hex : ∃ c ∈ n.children, nodeHasTokens c = true
      · obtain ⟨b, c, a, he, hq, ha⟩ := splitLast hex
        have hcmem : c ∈ n.children := by rw [he]; simp
        have hcw := wf_child hw hcmem
        have hctok : tokenList c ≠ [] := (wf_hasTokens_iff hcw).mp hq
        have hanil : tokenListL a = [] := tokensL_nil (fun x hx => by
          have hxw := wf_child hw (by
            rw [he]
            exact List.mem_append.mpr (Or.inr (List.mem_cons_of_mem _ hx)))
          by_cases hxt : tokenList x = []
          · exact hxt
          · exact absurd ((wf_hasTokens_iff hxw).mpr hxt) (by simp [ha x hx]))
        rw [findRightmostToken_comp_some htk'
          (by rw [he]; exact reverse_find?_of_split hq ha)]
        rw [ih c hcmem hcw]
        have hrw : tokenListL (b ++ c :: a) = tokenListL b ++ tokenList c := by
          rw [tokenListL_append]
          simp only [tokenListL]
          rw [hanil, List.append_nil]
        rw [he, hrw, List.getLast?_append]
        cases hlast : (tokenList c).getLast? with
        | none => exact absurd (List.getLast?_eq_none_iff.mp hlast) hctok
        | some t => rfl
      · have hnone : n.children.reverse.find? nodeHasTokens = none := by
          rw [List.find?_eq_none]
          intro x hx
          by_cases hq : nodeHasTokens x = true
          · exact absurd ⟨x, List.mem_reverse.mp hx, hq⟩ hex
          · simp [hq]
        rw [findRightmostToken_comp_none htk' hnone]
        have : tokenListL n.children = [] := tokensL_nil (fun x hx => by
          have hxw := wf_child hw hx
          by_cases hxt : tokenList x = []
          · exact hxt
          · exact absurd ((wf_hasTokens_iff hxw).mpr hxt)
              (fun hh => hex ⟨x, hx, hh⟩))
        rw [this]
        rfl

theorem reverse_find?_all_fail_suffix {pred : Node → Bool} {xs ys : List Node}
    (hys : ∀ y ∈ ys, pred y = false) :
    (xs ++ ys).reverse.find? pred = xs.reverse.find? pred := by
  rw [List.reverse_append, List.find?_append]
  have h : ys.reverse.find? pred = none :=
    List.find?_eq_none.mpr (fun y hy => by simp [hys y (List.mem_reverse.mp hy)])
  rw [h, Option.none_or]

theorem reverse_find?_all_true {pred : Node → Bool} {xs : List Node}
    (hxs : ∀ x ∈ xs, pred x = true) : xs.reverse.find? pred = xs.getLast? := by
  induction xs with
  | nil => rfl
  | cons x xs ih =>
    rw [List.reverse_cons, List.find?_append, ih (fun y hy => hxs y (by simp [hy]))]
    have h1 : [x].find? pred = some x := List.find?_cons_of_pos _ (hxs x (by simp))
    have h2 : (x :: xs).getLast? = xs.getLast?.or (some x) := by
      rw [show x :: xs = [x] ++ xs from rfl, List.getLast?_append]
      rfl
    rw [h1, h2]

/-- Shared computation at the heart of both 'rightmost' uses of
`findPrecedingToken`: the rightmost-token search over a child prefix yields
the last token of that prefix. -/
theorem rightmost_children {b : List Node} (hw : ∀ x ∈ b, wfB x = true) :
    ((b.reverse.find? nodeHasTokens).bind findRightmostToken) =
      (tokenListL b).getLast? := by
  by_cases hex : ∃ x ∈ b, nodeHasTokens x = true
  · obtain ⟨b1, x, b2, he, hq, hb2⟩ := splitLast hex
    have hxw : wfB x = true := hw x (by rw [he]; simp)
    have hxt : tokenList x ≠ [] := (wf_hasTokens_iff hxw).mp hq
    have hb2nil : tokenListL b2 = [] := tokensL_nil (fun y hy => by
      have hyw := hw y (by
        rw [he]
        exact List.mem_append.mpr (Or.inr (List.mem_cons_of_mem _ hy)))
      by_cases hyt : tokenList y = []
      · exact hyt
      · exact absurd ((wf_hasTokens_iff hyw).mpr hyt) (by simp [hb2 y hy]))
    rw [he, reverse_find?_of_split hq hb2]
    simp only [Option.bind_some, Option.some_bind]
    rw [rightmost_spec hxw]
    have hrw : tokenListL (b1 ++ x :: b2) = tokenListL b1 ++ tokenList x := by
      rw [tokenListL_append]
      simp only [tokenListL]
      rw [hb2nil, List.append_nil]
    rw [hrw, List.getLast?_append]
    cases hlast : (tokenList x).getLast? with
    | none => exact absurd (List.getLast?_eq_none_iff.mp hlast) hxt
    | some t => rfl
  · have hnone : b.reverse.find? nodeHasTokens = none :=
      List.find?_eq_none.mpr (fun x hx => by
        by_cases hq : nodeHasTokens x = true
        · exact absurd ⟨x, List.mem_reverse.mp hx, hq⟩ hex
        · simp [hq])
    rw [hnone]
    have : tokenListL b = [] := tokensL_nil (fun x hx => by
      have hxw := hw x hx
      by_cases hxt : tokenList x = []
      · exact hxt
      · exact absurd ((wf_hasTokens_iff hxw).mpr hxt) (fun hh => hex ⟨x, hx, hh⟩))
    rw [this]
    rfl

/-! ## `findPrecedingToken` unfolding lemmas -/

theorem precFind_token {n : Node} {p : Int} (ht : isToken n = true) :
    precFind p n = .ok (some n) := by
  rw [precFind, if_pos ht]

theorem precFind_split_ge {n c : Node} {p : Int} {b a : List Node}
    (ht : isToken n = false)
    (hsp : splitFirst (fun child =>
      nodeHasTokens child && decide (p < child.endP)) n.children = some (b, c, a))
    (hge : c.start_ ≥ p) :
    precFind p n = .ok ((b.reverse.find? nodeHasTokens).bind findRightmostToken) := by
  rw [precFind, if_neg (by simp [ht])]
  split
  · rename_i b' c' a' heq
    rw [hsp] at heq
    cases heq
    rw [if_pos hge]
  · rename_i heq
    rw [hsp] at heq
    cases heq

theorem precFind_split_lt {n c : Node} {p : Int} {b a : List Node}
    (ht : isToken n = false)
    (hsp : splitFirst (fun child =>
      nodeHasTokens child && decide (p < child.endP)) n.children = some (b, c, a))
    (hlt : c.start_ < p) :
    precFind p n = precFind p c := by
  rw [precFind, if_neg (by simp [ht])]
  split
  · rename_i b' c' a' heq
    rw [hsp] at heq
    cases heq
    rw [if_neg (by omega)]
  · rename_i heq
    rw [hsp] at heq
    cases heq

theorem precFind_no_child_sf {n : Node} {p : Int} (ht : isToken n = false)
    (hsp : splitFirst (fun child =>
      nodeHasTokens child && decide (p < child.endP)) n.children = none)
    (hk : n.kind = SyntaxKind.SourceFile) :
    precFind p n =
      .ok ((n.children.reverse.find? nodeHasTokens).bind findRightmostToken) := by
  rw [precFind, if_neg (by simp [ht])]
  split
  · rename_i b' c' a' heq
    rw [hsp] at heq
    cases heq
  · rw [if_pos hk]

theorem precFind_no_child_other {n : Node} {p : Int} (ht : isToken n = false)
    (hsp : splitFirst (fun child =>
      nodeHasTokens child && decide (p < child.endP)) n.children = none)
    (hk : n.kind ≠ SyntaxKind.SourceFile) :
    precFind p n = .error "Debug.assert failed" := by
  rw [precFind, if_neg (by simp [ht])]
  split
  · rename_i b' c' a' heq
    rw [hsp] at heq
    cases heq
  · rw [if_neg hk]

/-- The inner `find` of `findPrecedingToken`, on a well-formed subtree that
contains a token, whose rendered start lies strictly before the position and
whose full span strictly contains the position, never hits the `Debug.assert`
and returns the last token whose rendered start precedes the position. -/
theorem precFind_spec {n : Node} (hw : wfB n = true) :
    ∀ p : Int, tokenList n ≠ [] → n.start_ < p → p < n.endP →
    precFind p n =
      .ok ((tokenList n).reverse.find? (fun t => decide (t.start_ < p))) := by
  induction n using Node.strongInd with
  | _ n ih =>
    intro p htn hnsp hpe
    by_cases htk : isToken n
    · rw [precFind_token htk, tokenList_token htk]
      have : ([n].reverse).find? (fun t => decide (t.start_ < p)) = some n := by
        simp [hnsp]
      rw [this]
    · have htk' : isToken n = false := by simpa using htk
      have htkn := tokenList_comp htk'
      have htile := wf_tiles hw htk'
      cases hsp : splitFirst (fun child =>
          nodeHasTokens child && decide (p < child.endP)) n.children with
      | none =>
        exfalso
        have hch : ∃ c ∈ n.children, tokenList c ≠ [] := by
          by_contra hno
          push_neg at hno
          exact htn (by rw [htkn]; exact tokensL_nil hno)
        have hex : ∃ c ∈ n.children, nodeHasTokens c = true := by
          obtain ⟨c, hc, hct⟩ := hch
          exact ⟨c, hc, (wf_hasTokens_iff (wf_child hw hc)).mpr hct⟩
        obtain ⟨b, x, a, he, hq, ha⟩ := splitLast hex
        have hfail := splitFirst_none hsp
        have hxfail := hfail x (by rw [he]; simp)
        simp only [Bool.and_eq_false_iff, decide_eq_false_iff_not, not_lt] at hxfail
        have hxe : x.endP ≤ p := by
          rcases hxfail with hxf | hxf
          · rw [hq] at hxf; cases hxf
          · exact hxf
        rw [he] at htile
        obtain ⟨mid, hm1, hm2⟩ := tiles_append_split htile
        simp only [tilesB, Bool.and_eq_true, decide_eq_true_eq] at hm2
        have hzero : ∀ y ∈ a, y.pos = y.endP := by
          intro y hy
          have hyw := wf_child hw (by
            rw [he]
            exact List.mem_append.mpr (Or.inr (List.mem_cons_of_mem _ hy)))
          refine tokenless_zero hyw ?_
          by_cases hyt : tokenList y = []
          · exact hyt
          · exact absurd ((wf_hasTokens_iff hyw).mpr hyt) (by simp [ha y hy])
        have hxend := tiles_zero hm2.2 hzero
        omega
      | some r =>
        obtain ⟨b, c, a⟩ := r
        obtain ⟨he, hqc, hbf⟩ := splitFirst_spec hsp
        simp only [Bool.and_eq_true, decide_eq_true_eq] at hqc
        have hcmem : c ∈ n.children := by rw [he]; simp
        have hcw := wf_child hw hcmem
        have hcth : tokenList c ≠ [] := (wf_hasTokens_iff hcw).mp hqc.1
        rw [he] at htile
        have hsb := tiles_split_bounds htile
          (fun x hx => wf_pos_end (wf_child hw (by rw [he]; exact hx)))
        have htdec : tokenList n = tokenListL b ++ (tokenList c ++ tokenListL a) := by
          rw [htkn, he, tokenListL_append]
          rfl
        have haf : ∀ t ∈ tokenListL a,
            (fun t => decide (t.start_ < p)) t = false := by
          intro t htm
          obtain ⟨y, hy, hty⟩ := mem_tokenListL.mp htm
          have hyw := wf_child hw (by
            rw [he]
            exact List.mem_append.mpr (Or.inr (List.mem_cons_of_mem _ hy)))
          have hb1 := token_bounds hyw hty
          have hy2 := hsb.2.2.2 y hy
          have hy3 := wf_pos_start (tokens_wf hyw t hty).1
          simp only [decide_eq_false_iff_not, not_lt]
          omega
        have hbt : ∀ t ∈ tokenListL b,
            (fun t => decide (t.start_ < p)) t = true := by
          intro t htm
          obtain ⟨y, hy, hty⟩ := mem_tokenListL.mp htm
          have hyw := wf_child hw (by rw [he]; exact List.mem_append.mpr (Or.inl hy))
          have hyfail := hbf y hy
          simp only [Bool.and_eq_false_iff, decide_eq_false_iff_not, not_lt] at hyfail
          have hτ : tokenList y ≠ [] := fun hnil => by
            rw [hnil] at hty
            exact absurd hty (List.not_mem_nil t)
          rcases hyfail with hyf | hyf
          · exact absurd ((wf_hasTokens_iff hyw).mpr hτ) (by simp [hyf])
          · have hbd := token_bounds hyw hty
            have htw := tokens_wf hyw t hty
            have hse := (wf_token_leaf htw.1 htw.2).2
            simp only [decide_eq_true_eq]
            omega
        by_cases hge : c.start_ ≥ p
        · rw [precFind_split_ge htk' hsp hge]
          have hcf : ∀ t ∈ tokenList c,
              (fun t => decide (t.start_ < p)) t = false := by
            intro t htm
            have := token_start_lb hcw htm
            simp only [decide_eq_false_iff_not, not_lt]
            omega
          have hsufffail : ∀ y ∈ tokenList c ++ tokenListL a,
              (fun t => decide (t.start_ < p)) y = false := by
            intro y hy
            rcases List.mem_append.mp hy with hy | hy
            · exact hcf y hy
            · exact haf y hy
          have hrhs : (tokenList n).reverse.find? (fun t => decide (t.start_ < p)) =
              (tokenListL b).getLast? := by
            rw [htdec, reverse_find?_all_fail_suffix hsufffail,
              reverse_find?_all_true hbt]
          rw [hrhs,
            rightmost_children (fun x hx =>
              wf_child hw (by rw [he]; exact List.mem_append.mpr (Or.inl hx)))]
        · have hlt : c.start_ < p := by omega
          rw [precFind_split_lt htk' hsp hlt, ih c hcmem hcw p hcth hlt hqc.2]
          have hAB : (tokenList c).reverse.find? (fun t => decide (t.start_ < p)) =
              (tokenList n).reverse.find? (fun t => decide (t.start_ < p)) := by
            have hassoc : tokenListL b ++ (tokenList c ++ tokenListL a) =
                (tokenListL b ++ tokenList c) ++ tokenListL a := by
              rw [List.append_assoc]
            rw [htdec, hassoc, reverse_find?_all_fail_suffix haf,
              List.reverse_append, List.find?_append]
            obtain ⟨t0, ts, htc0⟩ := List.exists_cons_of_ne_nil hcth
            have ht0s : t0.start_ = c.start_ := (wf_start_eq_head hcw htc0).symm
            have hsome : ((tokenList c).reverse.find?
                (fun t => decide (t.start_ < p))).isSome := by
              rw [List.find?_isSome]
              refine ⟨t0, List.mem_reverse.mpr (by rw [htc0]; simp), by
                simp only [decide_eq_true_eq]
                omega⟩
            obtain ⟨t', ht'⟩ := Option.isSome_iff_exists.mp hsome
            rw [ht']
            rfl
          rw [hAB]

/-- Full characterization of `findPrecedingToken` on a well-formed source
file: it never fails and returns the last token of the file whose rendered
start lies strictly before the position (absent when no token starts before
the position). -/
theorem findPrecedingToken_char {root : Node} {p : Int} (hw : wfB root = true)
    (hk : root.kind = SyntaxKind.SourceFile) :
    findPrecedingToken p root =
      .ok ((tokenList root).reverse.find? (fun t => decide (t.start_ < p))) := by
  have htk' : isToken root = false := by simp [isToken, hk, isTokenKind]
  rw [findPrecedingToken]
  cases htn : tokenList root with
  | nil =>
    have hLnil : tokenListL root.children = [] := by
      rw [← tokenList_comp htk']
      exact htn
    have hchnil : ∀ c ∈ root.children, tokenList c = [] := by
      intro c hc
      by_contra hne
      obtain ⟨t0, ts0, h0⟩ := List.exists_cons_of_ne_nil hne
      have hmem : t0 ∈ tokenListL root.children :=
        mem_tokenListL.mpr ⟨c, hc, by rw [h0]; simp⟩
      rw [hLnil] at hmem
      simp at hmem
    have hsp : splitFirst (fun child =>
        nodeHasTokens child && decide (p < child.endP)) root.children = none := by
      cases hsp : splitFirst (fun child =>
          nodeHasTokens child && decide (p < child.endP)) root.children with
      | none => rfl
      | some r =>
        obtain ⟨b, c, a⟩ := r
        obtain ⟨he, hqc, _⟩ := splitFirst_spec hsp
        simp only [Bool.and_eq_true, decide_eq_true_eq] at hqc
        have hcmem : c ∈ root.children := by rw [he]; simp
        exact absurd ((wf_hasTokens_iff (wf_child hw hcmem)).mp hqc.1)
          (by simp [hchnil c hcmem])
    rw [precFind_no_child_sf htk' hsp hk,
      rightmost_children (fun x hx => wf_child hw hx), hLnil]
    rfl
  | cons t0 ts =>
    have htn' : tokenList root ≠ [] := by rw [htn]; simp
    rw [← htn]
    by_cases hsp1 : root.start_ < p
    · by_cases hpe : p < root.endP
      · exact precFind_spec hw p htn' hsp1 hpe
      · -- position at or past the end of the file: rightmost token overall
        have hqfail : ∀ x ∈ root.children, (fun child =>
            nodeHasTokens child && decide (p < child.endP)) x = false := by
          intro x hx
          have hbd := tiles_mem_bounds (wf_tiles hw htk')
            (fun y hy => wf_pos_end (wf_child hw hy)) x hx
          simp only [Bool.and_eq_false_iff, decide_eq_false_iff_not, not_lt]
          right
          omega
        have hsp : splitFirst (fun child =>
            nodeHasTokens child && decide (p < child.endP)) root.children = none := by
          cases hsp : splitFirst (fun child =>
              nodeHasTokens child && decide (p < child.endP)) root.children with
          | none => rfl
          | some r =>
            obtain ⟨b, c, a⟩ := r
            obtain ⟨he, hqc, _⟩ := splitFirst_spec hsp
            have hcmem : c ∈ root.children := by rw [he]; simp
            have hf := hqfail c hcmem
            simp only at hf
            rw [hf] at hqc
            cases hqc
        rw [precFind_no_child_sf htk' hsp hk,
          rightmost_children (fun x hx => wf_child hw hx), ← tokenList_comp htk']
        have hallt : ∀ t ∈ tokenList root,
            (fun t => decide (t.start_ < p)) t = true := by
          intro t htm
          have hbd := token_bounds hw htm
          have htw := tokens_wf hw t htm
          have := (wf_token_leaf htw.1 htw.2).2
          simp only [decide_eq_true_eq]
          omega
        rw [reverse_find?_all_true hallt]
    · -- no token starts before the position: absent
      have hsge : p ≤ root.start_ := by omega
      have hallf : ∀ t ∈ tokenList root,
          (fun t => decide (t.start_ < p)) t = false := by
        intro t htm
        have := token_start_lb hw htm
        simp only [decide_eq_false_iff_not, not_lt]
        omega
      have hrhs : (tokenList root).reverse.find?
          (fun t => decide (t.start_ < p)) = none :=
        List.find?_eq_none.mpr (fun t htm => by
          simp only [Bool.not_eq_true]
          exact hallf t (List.mem_reverse.mp htm))
      rw [hrhs]
      -- the first token's child qualifies, so the scan takes the
      -- "start at or after position" branch with an all-token-less prefix
      have ht0m : t0 ∈ tokenList root := by rw [htn]; simp
      have ht0s : root.start_ = t0.start_ := wf_start_eq_head hw htn
      obtain ⟨c0, hc0, ht0c⟩ := mem_tokenListL.mp
        (by rw [← tokenList_comp htk', htn]; simp :
          t0 ∈ tokenListL root.children)
      have hc0w := wf_child hw hc0
      have ht0w := tokens_wf hc0w t0 ht0c
      have hq0 : (fun child =>
          nodeHasTokens child && decide (p < child.endP)) c0 = true := by
        have h1 : tokenList c0 ≠ [] := fun hnil => by
          rw [hnil] at ht0c
          exact absurd ht0c (List.not_mem_nil t0)
        have h2 := token_bounds hc0w ht0c
        have h3 := (wf_token_leaf ht0w.1 ht0w.2).2
        simp only [Bool.and_eq_true, decide_eq_true_eq]
        exact ⟨(wf_hasTokens_iff hc0w).mpr h1, by omega⟩
      cases hsp : splitFirst (fun child =>
          nodeHasTokens child && decide (p < child.endP)) root.children with
      | none => exact absurd (splitFirst_none hsp c0 hc0) (by simp [hq0])
      | some r =>
        obtain ⟨b, c, a⟩ := r
        obtain ⟨he, hqc, hbf⟩ := splitFirst_spec hsp
        simp only [Bool.and_eq_true, decide_eq_true_eq] at hqc
        have hcmem : c ∈ root.children := by rw [he]; simp
        have hcw := wf_child hw hcmem
        have hcth : tokenList c ≠ [] := (wf_hasTokens_iff hcw).mp hqc.1
        obtain ⟨tc, tcs, htc⟩ := List.exists_cons_of_ne_nil hcth
        have htcm : tc ∈ tokenList root := by
          rw [tokenList_comp htk']
          exact mem_tokenListL.mpr ⟨c, hcmem, by rw [htc]; simp⟩
        have hge : c.start_ ≥ p := by
          have h1 := wf_start_eq_head hcw htc
          have h2 := token_start_lb hw htcm
          omega
        rw [precFind_split_ge htk' hsp hge,
          rightmost_children (fun x hx =>
            wf_child hw (by rw [he]; exact List.mem_append.mpr (Or.inl hx)))]
        have hbnil : tokenListL b = [] := tokensL_nil (fun y hy => by
          have hyw := wf_child hw (by
            rw [he]; exact List.mem_append.mpr (Or.inl hy))
          by_contra hne
          obtain ⟨ty, tys, hty⟩ := List.exists_cons_of_ne_nil hne
          have htym : ty ∈ tokenList y := by rw [hty]; simp
          have htyr : ty ∈ tokenList root := by
            rw [tokenList_comp htk']
            exact mem_tokenListL.mpr ⟨y, by
              rw [he]; exact List.mem_append.mpr (Or.inl hy), htym⟩
          have h1 := hbf y hy
          simp only [Bool.and_eq_false_iff, decide_eq_false_iff_not, not_lt] at h1
          rcases h1 with h1 | h1
          · exact absurd ((wf_hasTokens_iff hyw).mpr hne) (by simp [h1])
          · have h2 := token_bounds hyw htym
            have h3 := tokens_wf hyw ty htym
            have h4 := (wf_token_leaf h3.1 h3.2).2
            have h5 := token_start_lb hw htyr
            omega)
        rw [hbnil]
        rfl

/-! ## `findNextToken` lemmas -/

theorem nextFind_self {t n : Node} (h1 : isToken n = true)
    (h2 : n.pos = t.endP) : nextFind t n = some n := by
  rw [nextFind, if_pos ⟨h1, h2⟩]

theorem nextFind_some {t n c : Node}
    (h : ¬(isToken n = true ∧ n.pos = t.endP))
    (hf : n.children.find? (fun child =>
      (decide (child.pos ≤ t.pos) && decide (child.endP > t.endP) ||
       decide (child.pos = t.endP)) && nodeHasTokens child) = some c) :
    nextFind t n = nextFind t c := by
  rw [nextFind, if_neg h]
  split
  · rename_i child heq
    rw [hf] at heq
    cases heq
    rfl
  · rename_i heq
    rw [hf] at heq
    cases heq

theorem nextFind_none {t n : Node}
    (h : ¬(isToken n = true ∧ n.pos = t.endP))
    (hf : n.children.find? (fun child =>
      (decide (child.pos ≤ t.pos) && decide (child.endP > t.endP) ||
       decide (child.pos = t.endP)) && nodeHasTokens child) = none) :
    nextFind t n = none := by
  rw [nextFind, if_neg h]
  split
  · rename_i child heq
    rw [hf] at heq
    cases heq
  · rfl

theorem tiles_nodup_pos {lo hi : Int} {ts : List Node}
    (h : tilesB lo hi ts = true) (hne : ∀ x ∈ ts, x.pos < x.endP) :
    ∀ u ∈ ts, ∀ v ∈ ts, u.pos = v.pos → u = v := by
  induction ts generalizing lo with
  | nil => simp
  | cons x xs ih =>
    simp only [tilesB, Bool.and_eq_true, decide_eq_true_eq] at h
    have hxbd := hne x (by simp)
    have hbd := tiles_mem_bounds h.2
      (fun y hy => le_of_lt (hne y (by simp [hy])))
    intro u hu v hv hpos
    rcases List.mem_cons.mp hu with hu1 | hu1
    · rcases List.mem_cons.mp hv with hv1 | hv1
      · rw [hu1, hv1]
      · exfalso
        have h1 := hbd v hv1
        rw [hu1] at hpos
        omega
    · rcases List.mem_cons.mp hv with hv1 | hv1
      · exfalso
        have h1 := hbd u hu1
        rw [hv1] at hpos
        omega
      · exact ih h.2 (fun y hy => hne y (by simp [hy])) u hu1 v hv1 hpos

theorem find?_eq_some_of_unique {pred : Node → Bool} {l : List Node} {u : Node}
    (hu : u ∈ l) (hp : pred u = true)
    (huniq : ∀ v ∈ l, pred v = true → v = u) : l.find? pred = some u := by
  induction l with
  | nil => simp at hu
  | cons x xs ih =>
    by_cases hx : pred x = true
    · rw [List.find?_cons_of_pos _ hx, huniq x (by simp) hx]
    · rw [List.find?_cons_of_neg _ (by simp [hx])]
      rcases List.mem_cons.mp hu with hu | hu
      · rw [← hu] at hx
        exact absurd hp hx
      · exact ih hu (fun v hv hpv => huniq v (by simp [hv]) hpv)

/-- The inner `find` of `findNextToken`, entered at a token-bearing node that
starts exactly at the end of the previous token, returns that node's first
token. -/
theorem nextFind_at {t n : Node} (hw : wfB n = true)
    (htokens : tokenList n ≠ []) (htp : t.pos < t.endP)
    (hpos : n.pos = t.endP) : nextFind t n = (tokenList n).head? := by
  induction n using Node.strongInd with
  | _ n ih =>
    by_cases htk : isToken n
    · rw [nextFind_self htk hpos, tokenList_token htk]
      rfl
    · have htk' : isToken n = false := by simpa using htk
      have htkn := tokenList_comp htk'
      have htile := wf_tiles hw htk'
      cases hsp : splitFirst nodeHasTokens n.children with
      | none =>
        exfalso
        have hall := splitFirst_none hsp
        have hnil : tokenListL n.children = [] := tokensL_nil (fun x hx => by
          have hxw := wf_child hw hx
          by_contra hne
          exact absurd ((wf_hasTokens_iff hxw).mpr hne) (by simp [hall x hx]))
        exact htokens (by rw [htkn, hnil])
      | some r =>
        obtain ⟨b, c, a⟩ := r
        obtain ⟨he, hqc, hbf⟩ := splitFirst_spec hsp
        have hcmem : c ∈ n.children := by rw [he]; simp
        have hcw := wf_child hw hcmem
        have hcth : tokenList c ≠ [] := (wf_hasTokens_iff hcw).mp hqc
        have hbnil : tokenListL b = [] := tokensL_nil (fun y hy => by
          have hyw := wf_child hw (by
            rw [he]; exact List.mem_append.mpr (Or.inl hy))
          by_contra hne
          exact absurd ((wf_hasTokens_iff hyw).mpr hne) (by simp [hbf y hy]))
        have hczero : c.pos = n.pos := by
          rw [he] at htile
          obtain ⟨mid, hm1, hm2⟩ := tiles_append_split htile
          simp only [tilesB, Bool.and_eq_true, decide_eq_true_eq] at hm2
          have : n.pos = mid := tiles_zero hm1 (fun y hy => by
            have hyw := wf_child hw (by
              rw [he]; exact List.mem_append.mpr (Or.inl hy))
            refine tokenless_zero hyw ?_
            by_contra hne
            exact absurd ((wf_hasTokens_iff hyw).mpr hne) (by simp [hbf y hy]))
          omega
        have hfind : n.children.find? (fun child =>
            (decide (child.pos ≤ t.pos) && decide (child.endP > t.endP) ||
             decide (child.pos = t.endP)) && nodeHasTokens child) = some c := by
          rw [he]
          apply find?_of_split
          · simp only [Bool.and_eq_true, Bool.or_eq_true, decide_eq_true_eq]
            exact ⟨Or.inr (by omega), hqc⟩
          · intro x hx
            simp only [Bool.and_eq_false_iff]
            right
            simp [hbf x hx]
        rw [nextFind_some (by simp [htk']) hfind,
          ih c hcmem hcw hcth (by omega)]
        rw [htkn, he, tokenListL_append, hbnil]
        simp only [tokenListL, List.nil_append, List.head?_append]
        cases hh : (tokenList c).head? with
        | none => exact absurd (List.head?_eq_none_iff.mp hh) hcth
        | some u => rfl

/-- The inner `find` of `findNextToken` on a bounding ancestor of the
previous token returns the first (hence, by span disjointness, unique) token
whose full start coincides with the previous token's end. -/
theorem nextFind_spec {t n : Node} (hw : wfB n = true) (hd : Descendant t n)
    (ht : isToken t = true) :
    nextFind t n = (tokenList n).find? (fun u => decide (u.pos = t.endP)) := by
  induction hd with
  | refl =>
    have hl := wf_token_leaf hw ht
    have hps := wf_pos_start hw
    have hse := hl.2
    have hnot : ¬(isToken t = true ∧ t.pos = t.endP) := by
      rintro ⟨_, h2⟩
      omega
    have hpf : ¬((fun u => decide (u.pos = t.endP)) t = true) := by
      simp only [decide_eq_true_eq]
      omega
    rw [nextFind_none hnot (by rw [hl.1]; rfl), tokenList_token ht]
    symm
    rw [List.find?_eq_none]
    intro u hu
    simp only [List.mem_singleton] at hu
    subst hu
    exact hpf
  | child hc hd ih =>
    rename_i c m
    have hcw := wf_child hw hc
    have hmt : isToken m = false := by
      by_cases hmt : isToken m
      · have := (wf_token_leaf hw hmt).1
        rw [this] at hc
        simp at hc
      · simpa using hmt
    have hnot : ¬(isToken m = true ∧ m.pos = t.endP) := by
      rintro ⟨h1, _⟩
      rw [hmt] at h1
      cases h1
    have htm : t ∈ tokenList c := desc_token_mem hcw hd ht
    have htne : tokenList c ≠ [] := fun hnil => by
      rw [hnil] at htm
      exact absurd htm (List.not_mem_nil t)
    have htw := tokens_wf hcw t htm
    have hts : t.pos ≤ t.start_ := wf_pos_start htw.1
    have hte : t.start_ < t.endP := (wf_token_leaf htw.1 htw.2).2
    have hcb := desc_bounds hcw hd
    obtain ⟨b, a, he⟩ := List.append_of_mem hc
    have htile := wf_tiles hw hmt
    rw [he] at htile
    have hsb := tiles_split_bounds htile
      (fun x hx => wf_pos_end (wf_child hw (by rw [he]; exact hx)))
    have htkn := tokenList_comp hmt
    have htdec : tokenList m = tokenListL b ++ (tokenList c ++ tokenListL a) := by
      rw [htkn, he, tokenListL_append]
      rfl
    have hbdivefail : ∀ x ∈ b, (fun child =>
        (decide (child.pos ≤ t.pos) && decide (child.endP > t.endP) ||
         decide (child.pos = t.endP)) && nodeHasTokens child) x = false := by
      intro x hx
      have h1 := hsb.2.1 x hx
      have h2 := wf_pos_end (wf_child hw (by
        rw [he]; exact List.mem_append.mpr (Or.inl hx)))
      simp only [Bool.and_eq_false_iff, Bool.or_eq_false_iff,
        decide_eq_false_iff_not, not_lt]
      left
      exact ⟨Or.inr (by omega), by omega⟩
    have hbtokfail : ∀ u ∈ tokenListL b,
        (fun u => decide (u.pos = t.endP)) u = false := by
      intro u hum
      obtain ⟨y, hy, huy⟩ := mem_tokenListL.mp hum
      have hyw := wf_child hw (by
        rw [he]; exact List.mem_append.mpr (Or.inl hy))
      have h1 := token_bounds hyw huy
      have h2 := hsb.2.1 y hy
      have h3 := tokens_wf hyw u huy
      have h4 := wf_pos_start h3.1
      have h5 := (wf_token_leaf h3.1 h3.2).2
      simp only [decide_eq_false_iff_not]
      omega
    have hbnone : (tokenListL b).find? (fun u => decide (u.pos = t.endP)) = none :=
      List.find?_eq_none.mpr (fun u hu => by simp [hbtokfail u hu])
    by_cases hcend : t.endP < c.endP
    · have hcdive : (fun child =>
          (decide (child.pos ≤ t.pos) && decide (child.endP > t.endP) ||
           decide (child.pos = t.endP)) && nodeHasTokens child) c = true := by
        simp only [Bool.and_eq_true, Bool.or_eq_true, decide_eq_true_eq]
        exact ⟨Or.inl ⟨hcb.1, hcend⟩, (wf_hasTokens_iff hcw).mpr htne⟩
      have hfind : m.children.find? (fun child =>
          (decide (child.pos ≤ t.pos) && decide (child.endP > t.endP) ||
           decide (child.pos = t.endP)) && nodeHasTokens child) = some c := by
        rw [he]
        exact find?_of_split hcdive hbdivefail
      rw [nextFind_some hnot hfind, ih hcw]
      have hafail : ∀ u ∈ tokenListL a,
          (fun u => decide (u.pos = t.endP)) u = false := by
        intro u hum
        obtain ⟨y, hy, huy⟩ := mem_tokenListL.mp hum
        have hyw := wf_child hw (by
          rw [he]; exact List.mem_append.mpr (Or.inr (List.mem_cons_of_mem _ hy)))
        have h1 := token_bounds hyw huy
        have h2 := hsb.2.2.2 y hy
        simp only [decide_eq_false_iff_not]
        omega
      have hanone : (tokenListL a).find?
          (fun u => decide (u.pos = t.endP)) = none :=
        List.find?_eq_none.mpr (fun u hu => by simp [hafail u hu])
      rw [htdec, List.find?_append, hbnone, Option.none_or, List.find?_append,
        hanone, Option.or_none]
    · have hceq : c.endP = t.endP := by omega
      have hcdivefail : (fun child =>
          (decide (child.pos ≤ t.pos) && decide (child.endP > t.endP) ||
           decide (child.pos = t.endP)) && nodeHasTokens child) c = false := by
        simp only [Bool.and_eq_false_iff, Bool.or_eq_false_iff,
          decide_eq_false_iff_not, not_lt]
        left
        constructor
        · right
          omega
        · have := wf_pos_start hcw
          have := wf_start_end hcw
          omega
      have hctokfail : ∀ u ∈ tokenList c,
          (fun u => decide (u.pos = t.endP)) u = false := by
        intro u hum
        have h1 := token_bounds hcw hum
        have h3 := tokens_wf hcw u hum
        have h4 := wf_pos_start h3.1
        have h5 := (wf_token_leaf h3.1 h3.2).2
        simp only [decide_eq_false_iff_not]
        omega
      have hcnone : (tokenList c).find? (fun u => decide (u.pos = t.endP)) = none :=
        List.find?_eq_none.mpr (fun u hu => by simp [hctokfail u hu])
      obtain ⟨mid, hm1, hm2⟩ := tiles_append_split htile
      simp only [tilesB, Bool.and_eq_true, decide_eq_true_eq] at hm2
      cases hspa : splitFirst nodeHasTokens a with
      | some r =>
        obtain ⟨a1, x, a2⟩ := r
        obtain ⟨hea, hqx, ha1⟩ := splitFirst_spec hspa
        have hxmem : x ∈ m.children := by rw [he, hea]; simp
        have hxw := wf_child hw hxmem
        have hxt : tokenList x ≠ [] := (wf_hasTokens_iff hxw).mp hqx
        have ha1mem : ∀ y ∈ a1, y ∈ m.children := by
          intro y hy
          rw [he, hea]
          refine List.mem_append.mpr (Or.inr (List.mem_cons_of_mem _ ?_))
          exact List.mem_append.mpr (Or.inl hy)
        have ha1nil : ∀ y ∈ a1, tokenList y = [] := by
          intro y hy
          have hyw := wf_child hw (ha1mem y hy)
          by_contra hne
          exact absurd ((wf_hasTokens_iff hyw).mpr hne) (by simp [ha1 y hy])
        have hxpos : x.pos = t.endP := by
          rw [hea] at hm2
          obtain ⟨mid2, hn1, hn2⟩ := tiles_append_split hm2.2
          simp only [tilesB, Bool.and_eq_true, decide_eq_true_eq] at hn2
          have hzz : c.endP = mid2 := tiles_zero hn1 (fun y hy => by
            have hyw := wf_child hw (ha1mem y hy)
            exact tokenless_zero hyw (ha1nil y hy))
          omega
        have hfind : m.children.find? (fun child =>
            (decide (child.pos ≤ t.pos) && decide (child.endP > t.endP) ||
             decide (child.pos = t.endP)) && nodeHasTokens child) = some x := by
          rw [he, hea]
          have hassoc : b ++ c :: (a1 ++ x :: a2) = (b ++ c :: a1) ++ x :: a2 := by
            simp
          rw [hassoc]
          apply find?_of_split
          · simp only [Bool.and_eq_true, Bool.or_eq_true, decide_eq_true_eq]
            exact ⟨Or.inr hxpos, hqx⟩
          · intro y hy
            rcases List.mem_append.mp hy with hy | hy
            · exact hbdivefail y hy
            · rcases List.mem_cons.mp hy with hy | hy
              · rw [hy]
                exact hcdivefail
              · simp only [Bool.and_eq_false_iff]
                right
                simp [ha1 y hy]
        rw [nextFind_some hnot hfind,
          nextFind_at hxw hxt (by omega) hxpos]
        obtain ⟨u0, us, hu0⟩ := List.exists_cons_of_ne_nil hxt
        have hu0p : u0.pos = x.pos := tokens_head_pos hxw hu0
        have ha1nil' : tokenListL a1 = [] := tokensL_nil ha1nil
        have hRHS : (tokenList m).find? (fun u => decide (u.pos = t.endP)) =
            some u0 := by
          have hadec : tokenListL a = tokenList x ++ tokenListL a2 := by
            rw [hea, tokenListL_append, ha1nil', List.nil_append]
            rfl
          rw [htdec, hadec, List.find?_append, hbnone, Option.none_or,
            List.find?_append, hcnone, Option.none_or, List.find?_append]
          have hx0 : (tokenList x).find?
              (fun u => decide (u.pos = t.endP)) = some u0 := by
            rw [hu0]
            exact List.find?_cons_of_pos _ (by
              simp only [decide_eq_true_eq]
              omega)
          rw [hx0]
          rfl
        rw [hRHS, hu0]
        rfl
      | none =>
        have hanil : ∀ y ∈ a, tokenList y = [] := by
          intro y hy
          have hyw := wf_child hw (by
            rw [he]
            exact List.mem_append.mpr (Or.inr (List.mem_cons_of_mem _ hy)))
          by_contra hne
          exact absurd ((wf_hasTokens_iff hyw).mpr hne)
            (by simp [splitFirst_none hspa y hy])
        have hfind : m.children.find? (fun child =>
            (decide (child.pos ≤ t.pos) && decide (child.endP > t.endP) ||
             decide (child.pos = t.endP)) && nodeHasTokens child) = none := by
          rw [he, List.find?_eq_none]
          intro y hy
          simp only [Bool.not_eq_true]
          rcases List.mem_append.mp hy with hy | hy
          · exact hbdivefail y hy
          · rcases List.mem_cons.mp hy with hy | hy
            · rw [hy]
              exact hcdivefail
            · simp only [Bool.and_eq_false_iff]
              right
              have hyw := wf_child hw (by
                rw [he]
                exact List.mem_append.mpr (Or.inr (List.mem_cons_of_mem _ hy)))
              by_cases hq : nodeHasTokens y = true
              · exact absurd ((wf_hasTokens_iff hyw).mp hq) (by simp [hanil y hy])
              · simpa using hq
        rw [nextFind_none hnot hfind]
        have hanil' : tokenListL a = [] := tokensL_nil hanil
        rw [htdec, hanil', List.append_nil, List.find?_append, hbnone,
          Option.none_or, hcnone]

/-! ## Further shared lemmas -/

theorem tokens_desc {n : Node} : ∀ u ∈ tokenList n, Descendant u n := by
  induction n using Node.strongInd with
  | _ n ih =>
    intro u hu
    by_cases htk : isToken n
    · rw [tokenList_token htk] at hu
      simp only [List.mem_singleton] at hu
      rw [hu]
      exact Descendant.refl n
    · rw [tokenList_comp (by simpa using htk)] at hu
      obtain ⟨c, hc, huc⟩ := mem_tokenListL.mp hu
      exact Descendant.child hc (ih c hc u huc)

theorem tokens_pos_inj {n : Node} (hw : wfB n = true) :
    ∀ u ∈ tokenList n, ∀ v ∈ tokenList n, u.pos = v.pos → u = v :=
  tiles_nodup_pos (tokens_tile hw) (fun x hx => by
    have h := tokens_wf hw x hx
    have h1 := wf_pos_start h.1
    have h2 := (wf_token_leaf h.1 h.2).2
    omega)

theorem getTokenAtPosition_desc (n : Node) :
    ∀ p : Int, Descendant (getTokenAtPosition n p) n := by
  induction n using Node.strongInd with
  | _ n ih =>
    intro p
    cases hf : n.children.find? (fun c =>
        decide (c.pos ≤ p) && decide (p < c.endP)) with
    | some c =>
      rw [getTokenAtPosition_some hf]
      have hc := List.mem_of_find?_eq_some hf
      exact Descendant.child hc (ih c hc p)
    | none =>
      rw [getTokenAtPosition_none hf]
      exact Descendant.refl n

theorem findRightmostToken_isToken {n : Node} :
    ∀ r : Node, findRightmostToken n = some r → isToken r = true := by
  induction n using Node.strongInd with
  | _ n ih =>
    intro r h
    by_cases htk : isToken n
    · rw [findRightmostToken_token htk] at h
      cases h
      exact htk
    · cases hf : n.children.reverse.find? nodeHasTokens with
      | some c =>
        rw [findRightmostToken_comp_some (by simpa using htk) hf] at h
        exact ih c (List.mem_reverse.mp (List.mem_of_find?_eq_some hf)) r h
      | none =>
        rw [findRightmostToken_comp_none (by simpa using htk) hf] at h
        cases h

theorem precFind_isToken {n : Node} :
    ∀ (p : Int) (r : Node), precFind p n = .ok (some r) → isToken r = true := by
  induction n using Node.strongInd with
  | _ n ih =>
    intro p r h
    by_cases htk : isToken n
    · rw [precFind_token htk] at h
      cases h
      exact htk
    · have htk' : isToken n = false := by simpa using htk
      cases hsp : splitFirst (fun child =>
          nodeHasTokens child && decide (p < child.endP)) n.children with
      | some rr =>
        obtain ⟨b, c, a⟩ := rr
        by_cases hge : c.start_ ≥ p
        · rw [precFind_split_ge htk' hsp hge] at h
          simp only [Except.ok.injEq] at h
          obtain ⟨cand, _, h2⟩ := Option.bind_eq_some.mp h
          exact findRightmostToken_isToken r h2
        · rw [precFind_split_lt htk' hsp (by omega)] at h
          exact ih c (splitFirst_mem hsp) p r h
      | none =>
        by_cases hk : n.kind = SyntaxKind.SourceFile
        · rw [precFind_no_child_sf htk' hsp hk] at h
          simp only [Except.ok.injEq] at h
          obtain ⟨cand, _, h2⟩ := Option.bind_eq_some.mp h
          exact findRightmostToken_isToken r h2
        · rw [precFind_no_child_other htk' hsp hk] at h
          cases h

theorem nextFind_isToken {t : Node} {n : Node} :
    ∀ u : Node, nextFind t n = some u → isToken u = true := by
  induction n using Node.strongInd with
  | _ n ih =>
    intro u h
    by_cases hcond : isToken n = true ∧ n.pos = t.endP
    · rw [nextFind_self hcond.1 hcond.2] at h
      cases h
      exact hcond.1
    · cases hf : n.children.find? (fun child =>
          (decide (child.pos ≤ t.pos) && decide (child.endP > t.endP) ||
           decide (child.pos = t.endP)) && nodeHasTokens child) with
      | some c =>
        rw [nextFind_some hcond hf] at h
        exact ih c (List.mem_of_find?_eq_some hf) u h
      | none =>
        rw [nextFind_none hcond hf] at h
        cases h

theorem isToken_kind {n : Node} (h : isToken n = true) :
    ∃ k, n.kind = SyntaxKind.Token k := by
  cases hk : n.kind <;> simp [isToken, isTokenKind, hk] at h ⊢

/-! ## Index lemmas for list navigation -/

theorem tiles_get_lt {lo hi : Int} {cs : List Node} (h : tilesB lo hi cs = true)
    (hpe : ∀ c ∈ cs, c.pos ≤ c.endP) :
    ∀ (i j : Nat) (hij : i < j) (hj : j < cs.length),
    (cs.get ⟨i, lt_trans hij hj⟩).endP ≤ (cs.get ⟨j, hj⟩).pos := by
  induction cs generalizing lo with
  | nil => intro i j hij hj; simp at hj
  | cons x xs ih =>
    simp only [tilesB, Bool.and_eq_true, decide_eq_true_eq] at h
    intro i j hij hj
    cases i with
    | zero =>
      cases j with
      | zero => omega
      | succ j' =>
        simp only [List.get]
        have hjm : xs.get ⟨j', by simpa using hj⟩ ∈ xs := List.get_mem xs j' _
        have := tiles_mem_bounds h.2
          (fun y hy => hpe y (by simp [hy])) _ hjm
        exact this.1
    | succ i' =>
      cases j with
      | zero => omega
      | succ j' =>
        simp only [List.get]
        exact ih h.2 (fun y hy => hpe y (by simp [hy])) i' j'
          (by omega) (by simpa using hj)

theorem tiles_at_most_one_index {lo hi p : Int} {cs : List Node}
    (h : tilesB lo hi cs = true) (hpe : ∀ c ∈ cs, c.pos ≤ c.endP) :
    ∀ (i j : Nat) (hi : i < cs.length) (hj : j < cs.length),
    (cs.get ⟨i, hi⟩).pos ≤ p → p < (cs.get ⟨i, hi⟩).endP →
    (cs.get ⟨j, hj⟩).pos ≤ p → p < (cs.get ⟨j, hj⟩).endP → i = j := by
  intro i j hi hj h1 h2 h3 h4
  rcases Nat.lt_trichotomy i j with hij | hij | hij
  · have := tiles_get_lt h hpe i j hij hj
    omega
  · exact hij
  · have := tiles_get_lt h hpe j i hij hi
    omega

theorem listIndexLoop_all_fail {cs : List Node} {p : Int} :
    ∀ base : Int, (∀ c ∈ cs, ¬(c.pos ≤ p ∧ p < c.endP)) →
    listIndexLoop cs p base = -1 := by
  induction cs with
  | nil => intro base _; rfl
  | cons x xs ih =>
    intro base h
    rw [listIndexLoop, if_neg (h x (by simp))]
    exact ih (base + 1) (fun y hy => h y (by simp [hy]))

theorem listIndexLoop_split {b a : List Node} {c : Node} {p : Int}
    (hc : c.pos ≤ p ∧ p < c.endP)
    (hb : ∀ x ∈ b, ¬(x.pos ≤ p ∧ p < x.endP)) :
    ∀ base : Int, listIndexLoop (b ++ c :: a) p base = base + b.length := by
  induction b with
  | nil =>
    intro base
    simp only [List.nil_append, listIndexLoop, if_pos hc, List.length_nil]
    omega
  | cons x xs ih =>
    intro base
    have hstep : listIndexLoop (x :: xs ++ c :: a) p base =
        listIndexLoop (xs ++ c :: a) p (base + 1) := by
      rw [List.cons_append, listIndexLoop, if_neg (hb x (by simp))]
    rw [hstep, ih (fun y hy => hb y (by simp [hy])) (base + 1)]
    simp only [List.length_cons]
    push_cast
    omega

theorem splitFirstProp {cs : List Node} {p : Int}
    (hex : ∃ c ∈ cs, c.pos ≤ p ∧ p < c.endP) :
    ∃ b c a, cs = b ++ c :: a ∧ (c.pos ≤ p ∧ p < c.endP) ∧
      ∀ x ∈ b, ¬(x.pos ≤ p ∧ p < x.endP) := by
  cases hsp : splitFirst (fun c => decide (c.pos ≤ p) && decide (p < c.endP)) cs with
  | none =>
    obtain ⟨c, hc, h1, h2⟩ := hex
    have := splitFirst_none hsp c hc
    simp [h1, h2] at this
  | some r =>
    obtain ⟨b, c, a⟩ := r
    obtain ⟨he, hq, hb⟩ := splitFirst_spec hsp
    simp only [Bool.and_eq_true, decide_eq_true_eq] at hq
    refine ⟨b, c, a, he, hq, ?_⟩
    intro x hx h
    have := hb x hx
    simp [h.1, h.2] at this

theorem listIndexLoop_char {cs : List Node} {p : Int} :
    (listIndexLoop cs p 0 = -1 ∧ ∀ c ∈ cs, ¬(c.pos ≤ p ∧ p < c.endP)) ∨
    (∃ b c a, cs = b ++ c :: a ∧ (c.pos ≤ p ∧ p < c.endP) ∧
      (∀ x ∈ b, ¬(x.pos ≤ p ∧ p < x.endP)) ∧
      listIndexLoop cs p 0 = b.length) := by
  by_cases hex : ∃ c ∈ cs, c.pos ≤ p ∧ p < c.endP
  · right
    obtain ⟨b, c, a, he, hc, hb⟩ := splitFirstProp hex
    refine ⟨b, c, a, he, hc, hb, ?_⟩
    rw [he, listIndexLoop_split hc hb 0]
    omega
  · left
    push_neg at hex
    refine ⟨listIndexLoop_all_fail 0 ?_, ?_⟩ <;>
    · intro c hc h
      have := hex c hc h.1
      omega

theorem indexOfAux_eq {cs : List Node} {c : Node} :
    ∀ (i : Nat) (hi : i < cs.length), cs.get ⟨i, hi⟩ = c →
    (∀ (j : Nat) (hj : j < i), cs.get ⟨j, lt_trans hj hi⟩ ≠ c) →
    ∀ base : Int, indexOfAux cs c base = base + i := by
  induction cs with
  | nil => intro i hi; simp at hi
  | cons x xs ih =>
    intro i hi hget hpre base
    cases i with
    | zero =>
      simp only [List.get] at hget
      rw [indexOfAux, if_pos hget]
      omega
    | succ i' =>
      have hx : x ≠ c := by
        have := hpre 0 (Nat.succ_pos i')
        simpa using this
      rw [indexOfAux, if_neg hx]
      rw [ih i' (by simpa using hi) (by simpa using hget)
        (fun j hj => by
          have := hpre (j + 1) (by omega)
          simpa using this) (base + 1)]
      push_cast
      omega

/-! ## Concrete well-formed trees used by witnesses and counterexamples -/

/-- Token covering text `[1, 3)` with one leading trivia character `[0, 1)`. -/
def wtok1 : Node := .mk (.Token 0) 0 1 3 []

/-- Token covering text `[4, 6)` with one leading trivia character `[3, 4)`. -/
def wtok2 : Node := .mk (.Token 1) 3 4 6 []

/-- Statement list holding the two tokens. -/
def wstmts : Node := .mk .SyntaxList 0 1 6 [wtok1, wtok2]

/-- Zero-width end-of-file marker. -/
def weof : Node := .mk .EndOfFileToken 6 6 6 []

/-- A well-formed source file over a 6-character document. -/
def wroot : Node := .mk .SourceFile 0 1 6 [wstmts, weof]

/-- Tokens of a call-like construct `f(1,2)` over offsets `[0, 6)`. -/
def bid : Node := .mk (.Token 2) 0 0 1 []

def bopen : Node := .mk (.Token 3) 1 1 2 []

def barg1 : Node := .mk (.Token 4) 2 2 3 []

def bcomma : Node := .mk (.Token 5) 3 3 4 []

def barg2 : Node := .mk (.Token 6) 4 4 5 []

def bclose : Node := .mk (.Token 7) 5 5 6 []

/-- Argument list group `1,2` of the call. -/
def bargs : Node := .mk .SyntaxList 2 2 5 [barg1, bcomma, barg2]

/-- Call node: identifier, open paren, argument list group, close paren. -/
def bcall : Node := .mk (.Composite 0) 0 0 6 [bid, bopen, bargs, bclose]

/-- A list group whose single token child has two characters of leading
trivia (`pos = 0`, rendered start `2`). -/
def cex2c : Node := .mk (.Token 8) 0 2 5 []

def cex2L : Node := .mk .SyntaxList 0 2 5 [cex2c]

/-- Token `[0,2)` filling the first list group below. -/
def cex8ta : Node := .mk (.Token 9) 0 0 2 []

/-- A list group `[0,2)` ending exactly where the second one begins. -/
def cex8M : Node := .mk .SyntaxList 0 0 2 [cex8ta]

/-- Zero-width `Missing` placeholder at offset 2: the degenerate first
element of the second list group. -/
def cex8c : Node := .mk .Missing 2 2 2 []

/-- Token `[2,4)`, the second element of the second list group. -/
def cex8tb : Node := .mk (.Token 10) 2 2 4 []

/-- The second list group `[2,4)`, whose first child is the zero-width
placeholder `cex8c`. -/
def cex8L : Node := .mk .SyntaxList 2 2 4 [cex8c, cex8tb]

/-- Logical parent holding the two adjacent list groups. -/
def cex8P : Node := .mk (.Composite 1) 0 0 4 [cex8M, cex8L]

/-- `wtok1` sits below `wroot` through the statement list. -/
theorem desc_wtok1 : Descendant wtok1 wroot :=
  Descendant.child (show wstmts ∈ wroot.children from List.Mem.head _)
    (Descendant.child (show wtok1 ∈ wstmts.children from List.Mem.head _)
      (Descendant.refl _))

/-- `wtok2` sits below `wroot` through the statement list. -/
theorem desc_wtok2 : Descendant wtok2 wroot :=
  Descendant.child (show wstmts ∈ wroot.children from List.Mem.head _)
    (Descendant.child
      (show wtok2 ∈ wstmts.children from List.Mem.tail _ (List.Mem.head _))
      (Descendant.refl _))

theorem get_append_cons {b a : List Node} {c : Node}
    (h : b.length < (b ++ c :: a).length) :
    (b ++ c :: a).get ⟨b.length, h⟩ = c := by
  induction b with
  | nil => rfl
  | cons x xs ih => exact ih (by simpa using h)

/-! ## Claims -/

/-- C1 counterexample: offset 2 lies strictly inside token `wtok1` (rendered
span `[1,3)`) of the well-formed file `wroot`, yet `findPrecedingToken`
returns `wtok1`, whose end 3 is strictly greater than 2 — refuting "never
returns a token whose end is strictly greater than p" and, with it, the
claimed maximization of `t.end` subject to `t.end <= p`. -/
theorem c1_counterexample :
    wfB wroot = true ∧ findPrecedingToken 2 wroot = .ok (some wtok1) ∧
      (2 : Int) < wtok1.endP := by
  refine ⟨by decide, ?_, by decide⟩
  rw [findPrecedingToken_char (by decide) (by decide)]
  decide

/-- C1 (amended): on a well-formed source file, `findPrecedingToken` returns
the last token whose rendered start lies strictly before `p` — equivalently,
the unique token maximizing `t.end` subject to `t.end <= p`, except that an
offset strictly inside a token's rendered span yields that token itself — and
absent exactly when no token of the file starts before `p`; it never throws
the `Debug.assert`. -/
theorem c1_findPrecedingToken_amended {root : Node} {p : Int}
    (hw : wfB root = true) (hk : root.kind = SyntaxKind.SourceFile) :
    findPrecedingToken p root =
      .ok ((tokenList root).reverse.find? (fun t => decide (t.start_ < p))) ∧
    (∀ r : Node, findPrecedingToken p root = Except.ok (some r) →
      r ∈ tokenList root ∧ r.start_ < p ∧
      ∀ u ∈ tokenList root, u.start_ < p → u.endP ≤ r.endP) ∧
    (findPrecedingToken p root = Except.ok none →
      ∀ u ∈ tokenList root, p ≤ u.start_) := by
  have hchar := @findPrecedingToken_char root p hw hk
  refine ⟨hchar, ?_, ?_⟩
  · intro r hr
    rw [hchar] at hr
    simp only [Except.ok.injEq] at hr
    have hrm : r ∈ tokenList root :=
      List.mem_reverse.mp (List.mem_of_find?_eq_some hr)
    have hrp := List.find?_some hr
    simp only [decide_eq_true_eq] at hrp
    refine ⟨hrm, hrp, ?_⟩
    obtain ⟨_, as, bs, hsplit, hfail⟩ := List.find?_eq_some.mp hr
    have hsplit2 : tokenList root = bs.reverse ++ r :: as.reverse := by
      have hh := congrArg List.reverse hsplit
      rw [List.reverse_reverse] at hh
      rw [hh]
      simp
    have htile := tokens_tile hw
    rw [hsplit2] at htile
    have hsb := tiles_split_bounds htile (fun x hx =>
      tokens_pe hw x (by rw [hsplit2]; exact hx))
    intro u hu hup
    rw [hsplit2] at hu
    rcases List.mem_append.mp hu with hu | hu
    · have h1 := hsb.2.1 u hu
      have h3 : r.pos ≤ r.endP := tokens_pe hw r hrm
      omega
    · rcases List.mem_cons.mp hu with hu | hu
      · rw [hu]
      · have := hfail u (List.mem_reverse.mp hu)
        simp only [Bool.not_eq_true', decide_eq_false_iff_not] at this
        omega
  · intro hr
    rw [hchar] at hr
    simp only [Except.ok.injEq] at hr
    rw [List.find?_eq_none] at hr
    intro u hu
    have := hr u (List.mem_reverse.mpr hu)
    simp only [decide_eq_true_eq] at this
    omega

/-- C1 witness: the amended theorem applied to the concrete file `wroot` at
offset 7 (past the end of the document) yields the rightmost token. -/
theorem c1_findPrecedingToken_amended_witness :
    wfB wroot = true ∧ findPrecedingToken 7 wroot = .ok (some wtok2) := by
  refine ⟨by decide, ?_⟩
  have h := (@c1_findPrecedingToken_amended wroot 7 (by decide) (by decide)).1
  rw [h]
  decide

/-- C2 counterexample: the single child of the well-formed list `cex2L` has
full span `[0,5)` but rendered span `[2,5)`; offset 1 lies in the child's
leading trivia, outside every child's rendered span, where the claim demands
the sentinel `-1` — yet the code, which tests the trivia-included `pos`,
returns index 0. -/
theorem c2_counterexample :
    wfB cex2L = true ∧ cex2L.children = [cex2c] ∧
    ¬(cex2c.start_ ≤ 1 ∧ (1 : Int) < cex2c.endP) ∧
    findListItemIndexContainingPosition cex2L 1 = .ok 0 := by
  decide

/-- C2 (amended): for a well-formed list group, the scan returns `i` iff the
`i`-th child's full span `[fullStart, end)` (trivia-included start, not the
rendered start) contains the offset, and `-1` exactly when no child's full
span contains it; an offset inside a child's leading trivia therefore yields
that child's index, not `-1`. -/
theorem c2_findListItemIndexContainingPosition_amended {L : Node} {p : Int}
    (hw : wfB L = true) (hk : L.kind = SyntaxKind.SyntaxList) :
    (findListItemIndexContainingPosition L p = .ok (-1) ↔
      ∀ c ∈ L.children, ¬(c.pos ≤ p ∧ p < c.endP)) ∧
    (∀ (i : Nat) (hi : i < L.children.length),
      (findListItemIndexContainingPosition L p = .ok (i : Int) ↔
        ((L.children.get ⟨i, hi⟩).pos ≤ p ∧
          p < (L.children.get ⟨i, hi⟩).endP))) := by
  have hfn : findListItemIndexContainingPosition L p =
      .ok (listIndexLoop L.children p 0) := by
    rw [findListItemIndexContainingPosition, if_pos hk]
  have hLt : isToken L = false := by simp [isToken, hk, isTokenKind]
  have htile := wf_tiles hw hLt
  have hpe : ∀ c ∈ L.children, c.pos ≤ c.endP := fun c hc =>
    wf_pos_end (wf_child hw hc)
  constructor
  · constructor
    · intro h
      rcases @listIndexLoop_char L.children p with ⟨h1, h2⟩ |
        ⟨b, c, a, he, hc, hb, hres⟩
      · exact h2
      · rw [hfn, hres] at h
        simp only [Except.ok.injEq] at h
        omega
    · intro h
      rw [hfn, listIndexLoop_all_fail 0 h]
  · intro i hi
    constructor
    · intro h
      rcases @listIndexLoop_char L.children p with ⟨h1, h2⟩ |
        ⟨b, c, a, he, hc, hb, hres⟩
      · rw [hfn, h1] at h
        simp only [Except.ok.injEq] at h
        omega
      · rw [hfn, hres] at h
        simp only [Except.ok.injEq] at h
        have hbl : b.length = i := by omega
        subst hbl
        rw [List.get_of_eq he ⟨b.length, hi⟩, get_append_cons]
        exact hc
    · intro hsat
      rcases @listIndexLoop_char L.children p with ⟨h1, h2⟩ |
        ⟨b, c, a, he, hc, hb, hres⟩
      · exact absurd hsat (h2 _ (List.get_mem _ _ _))
      · have hbl : b.length < L.children.length := by
          rw [he]
          simp only [List.length_append, List.length_cons]
          omega
        have hgb : L.children.get ⟨b.length, hbl⟩ = c := by
          rw [List.get_of_eq he ⟨b.length, hbl⟩, get_append_cons]
        have hij := tiles_at_most_one_index htile hpe i b.length hi hbl
          hsat.1 hsat.2 (by rw [hgb]; exact hc.1) (by rw [hgb]; exact hc.2)
        rw [hfn, hres]
        simp only [Except.ok.injEq]
        omega

/-- C2 witness: the amended theorem applied to the concrete argument list
`bargs` at offset 3 yields index 1 (the comma, whose full span contains 3). -/
theorem c2_findListItemIndexContainingPosition_amended_witness :
    wfB bargs = true ∧
    findListItemIndexContainingPosition bargs 3 = .ok 1 := by
  refine ⟨by decide, ?_⟩
  exact ((@c2_findListItemIndexContainingPosition_amended bargs 3
    (by decide) (by decide)).2 1 (by decide)).mpr (by decide)

/-- C3: on a well-formed tree, full-span resolution at any offset inside the
root's full span returns a token-kind leaf (a childless token node), never a
composite node. -/
theorem c3_getTokenAtPosition_token {root : Node} {p : Int}
    (hw : wfB root = true) (h1 : root.pos ≤ p) (h2 : p < root.endP) :
    isToken (getTokenAtPosition root p) = true ∧
    (getTokenAtPosition root p).children = [] := by
  have ht := full_res_token hw p h1 h2
  exact ⟨ht, (wf_token_leaf (desc_wf hw (getTokenAtPosition_desc root p)) ht).1⟩

/-- C3 witness: at offset 3 (inside the second token's leading trivia) of the
concrete file, full-span resolution returns a token. -/
theorem c3_getTokenAtPosition_token_witness :
    wfB wroot = true ∧ isToken (getTokenAtPosition wroot 3) = true :=
  ⟨by decide,
    (c3_getTokenAtPosition_token (by decide) (by decide) (by decide)).1⟩

/-- C4 counterexample: `bid` has a parent (`bcall`, a well-formed tree) but no
list-group child of the parent encloses its span; the claim demands a
`PreconditionViolation` failure, yet `findContainingList` silently returns an
absent result (`.ok none`, the `undefined` of the source's `forEach`). -/
theorem c4_counterexample :
    wfB bcall = true ∧ bid ∈ bcall.children ∧
    findContainingList bid (some bcall) = .ok none := by
  decide

/-- C4 (amended): `findContainingList` fails (the JavaScript property access
crashes) exactly when the node has no parent; when the parent exists but none
of its list-group children encloses the node's span it silently returns an
absent result rather than failing; and any returned node is a list-group
child of the parent enclosing the node's span. -/
theorem c4_findContainingList_amended (n : Node) (parent? : Option Node) :
    ((∃ e, findContainingList n parent? = .error e) ↔ parent? = none) ∧
    (∀ P, parent? = some P →
      ((findContainingList n parent? = .ok none ↔
        ∀ c ∈ P.children,
          ¬(c.kind = SyntaxKind.SyntaxList ∧ c.pos ≤ n.pos ∧
            n.endP ≤ c.endP)) ∧
      (∀ L, findContainingList n parent? = .ok (some L) →
        L ∈ P.children ∧ L.kind = SyntaxKind.SyntaxList ∧
        L.pos ≤ n.pos ∧ n.endP ≤ L.endP))) := by
  constructor
  · constructor
    · rintro ⟨e, he⟩
      cases parent? with
      | none => rfl
      | some P => simp [findContainingList] at he
    · rintro rfl
      exact ⟨_, rfl⟩
  · rintro P rfl
    constructor
    · rw [findContainingList]
      simp only [Except.ok.injEq]
      rw [List.find?_eq_none]
      constructor
      · intro h c hc hcond
        have hq := h c hc
        simp only [Bool.and_eq_true, decide_eq_true_eq, ge_iff_le,
          not_and] at hq
        exact hq ⟨hcond.1, hcond.2.1⟩ hcond.2.2
      · intro h c hc
        have hq := h c hc
        simp only [Bool.and_eq_true, decide_eq_true_eq, ge_iff_le, not_and]
        intro h1 h2
        exact absurd ⟨h1.1, h1.2, h2⟩ hq
    · intro L hL
      rw [findContainingList] at hL
      simp only [Except.ok.injEq] at hL
      have h1 := List.mem_of_find?_eq_some hL
      have h2 := List.find?_some hL
      simp only [Bool.and_eq_true, decide_eq_true_eq, ge_iff_le] at h2
      exact ⟨h1, h2.1.1, h2.1.2, h2.2⟩

/-- C4 witness: the amended theorem applied to argument `barg1` of the
concrete call yields the argument list group, which is a list-kind child of
the parent enclosing the argument's span. -/
theorem c4_findContainingList_amended_witness :
    bargs ∈ bcall.children ∧ bargs.kind = SyntaxKind.SyntaxList ∧
    bargs.pos ≤ barg1.pos ∧ barg1.endP ≤ bargs.endP :=
  ((c4_findContainingList_amended barg1 (some bcall)).2 bcall rfl).2
    bargs (by decide)

/-- C5: `findNextToken` on a well-formed bounding ancestor of token `t`
returns exactly the first token whose full start equals `t.end`; a node is
returned iff it is a token of the ancestor's subtree with full start `t.end`
(so the result is unique), and the result is absent whenever
`parent.end <= t.end`. -/
theorem c5_findNextToken {t parent : Node} (hw : wfB parent = true)
    (hd : Descendant t parent) (ht : isToken t = true) :
    findNextToken t parent =
      (tokenList parent).find? (fun u => decide (u.pos = t.endP)) ∧
    (∀ u : Node, findNextToken t parent = some u ↔
      (Descendant u parent ∧ isToken u = true ∧ u.pos = t.endP)) ∧
    (parent.endP ≤ t.endP → findNextToken t parent = none) := by
  have hchar : findNextToken t parent =
      (tokenList parent).find? (fun u => decide (u.pos = t.endP)) :=
    nextFind_spec hw hd ht
  refine ⟨hchar, ?_, ?_⟩
  · intro u
    constructor
    · intro h
      rw [hchar] at h
      have hm := List.mem_of_find?_eq_some h
      have hp := List.find?_some h
      simp only [decide_eq_true_eq] at hp
      exact ⟨tokens_desc u hm, (tokens_wf hw u hm).2, hp⟩
    · rintro ⟨hdu, htu, hpu⟩
      rw [hchar]
      have hum : u ∈ tokenList parent := desc_token_mem hw hdu htu
      apply find?_eq_some_of_unique hum (by simp [hpu])
      intro v hv hpv
      simp only [decide_eq_true_eq] at hpv
      exact tokens_pos_inj hw v hv u hum (by rw [hpv, hpu])
  · intro hpe
    rw [hchar]
    apply List.find?_eq_none.mpr
    intro u hu
    have hb := token_bounds hw hu
    have huw := tokens_wf hw u hu
    have h1 := wf_pos_start huw.1
    have h2 := (wf_token_leaf huw.1 huw.2).2
    simp only [decide_eq_true_eq]
    omega

/-- C5 witness: in the concrete file, the token after `wtok1` is `wtok2`,
whose full start 3 equals `wtok1.end`. -/
theorem c5_findNextToken_witness :
    wfB wroot = true ∧ isToken wtok1 = true ∧
    findNextToken wtok1 wroot = some wtok2 := by
  refine ⟨by decide, by decide, ?_⟩
  exact ((c5_findNextToken (by decide) desc_wtok1 (by decide)).2.1 wtok2).mpr
    ⟨desc_wtok2, by decide, by decide⟩

/-- C6: every offset in a token's full span, leading trivia included,
resolves (full-span resolution) to exactly that token. -/
theorem c6_getTokenAtPosition_full_span {root t : Node} {p : Int}
    (hw : wfB root = true) (hd : Descendant t root) (ht : isToken t = true)
    (hp1 : t.pos ≤ p) (hp2 : p < t.endP) : getTokenAtPosition root p = t :=
  desc_find_full hd hw ht hp1 hp2

/-- C6 witness: offset 0 lies in `wtok1`'s leading trivia (`[0,1)`) and
resolves to `wtok1`. -/
theorem c6_getTokenAtPosition_full_span_witness :
    wfB wroot = true ∧ wtok1.pos ≤ 0 ∧ (0 : Int) < wtok1.endP ∧
    getTokenAtPosition wroot 0 = wtok1 :=
  ⟨by decide, by decide, by decide,
    c6_getTokenAtPosition_full_span (by decide) desc_wtok1 (by decide)
      (by decide) (by decide)⟩

/-- C7: for every offset in a token's rendered span `[start, end)`, full-span
resolution and rendered-span resolution agree (both return the token); the
two resolvers can only differ on leading-trivia offsets. -/
theorem c7_resolvers_agree {root t : Node} {p : Int} (hw : wfB root = true)
    (hd : Descendant t root) (ht : isToken t = true) (hp1 : t.start_ ≤ p)
    (hp2 : p < t.endP) :
    getNodeAtPosition root p = getTokenAtPosition root p ∧
    getTokenAtPosition root p = t := by
  have h1 := desc_find_full hd hw ht
    (le_trans (wf_pos_start (desc_wf hw hd)) hp1) hp2
  have h2 := desc_find_rendered hd hw ht hp1 hp2
  exact ⟨h2.trans h1.symm, h1⟩

/-- C7 witness: at offset 5, inside `wtok2`'s rendered span, both resolvers
return the same node. -/
theorem c7_resolvers_agree_witness :
    wfB wroot = true ∧ wtok2.start_ ≤ 5 ∧ (5 : Int) < wtok2.endP ∧
    getNodeAtPosition wroot 5 = getTokenAtPosition wroot 5 :=
  ⟨by decide, by decide, by decide,
    (c7_resolvers_agree (by decide) desc_wtok2 (by decide) (by decide)
      (by decide)).1⟩

/-- C8 counterexample: in the well-formed tree `cex8P`, the list group
`cex8L` has the zero-width `Missing` placeholder `cex8c` as its first child
(`i = 0`), yet `findListItemInfo cex8c` returns the *adjacent earlier* list
group `cex8M` — whose span `[0,2)` also "encloses" the degenerate span
`[2,2)` — with index `-1`, not the pair `(cex8L, 0)` the claim demands for
every `i` in `0..k`. -/
theorem c8_counterexample :
    wfB cex8P = true ∧ cex8P.children = [cex8M, cex8L] ∧
    cex8L.kind = SyntaxKind.SyntaxList ∧
    cex8L.children = [cex8c, cex8tb] ∧ cex8M ≠ cex8L ∧
    findListItemInfo cex8c (some cex8P) =
      .ok { listItemIndex := -1, list := cex8M } := by
  decide

/-- C8 (amended): for a list group `L` among the logical parent's children,
applying `findListItemInfo` to the `i`-th child of `L` returns the pair of
`L` and index `i` — the index found by identity comparison among the list's
children — for every `i` whose child has a non-empty full span
(`fullStart < end`); a zero-width child sitting on a list boundary may
instead resolve to an adjacent earlier list group with index `-1`. -/
theorem c8_findListItemInfo {P L c : Node} {i : Nat} (hw : wfB P = true)
    (hL : L ∈ P.children) (hk : L.kind = SyntaxKind.SyntaxList)
    (hi : i < L.children.length) (hc : c = L.children.get ⟨i, hi⟩)
    (hne : c.pos < c.endP) :
    findListItemInfo c (some P) =
      .ok { listItemIndex := (i : Int), list := L } := by
  have hLw := wf_child hw hL
  have hLt : isToken L = false := by simp [isToken, hk, isTokenKind]
  have hLtile := wf_tiles hLw hLt
  have hLpe : ∀ x ∈ L.children, x.pos ≤ x.endP := fun x hx =>
    wf_pos_end (wf_child hLw hx)
  have hcm : c ∈ L.children := hc ▸ List.get_mem _ _ _
  have hcb := tiles_mem_bounds hLtile hLpe c hcm
  have hPt : isToken P = false := by
    by_cases h : isToken P
    · rw [(wf_token_leaf hw h).1] at hL
      simp at hL
    · simpa using h
  obtain ⟨b, a, he⟩ := List.append_of_mem hL
  have hPtile := wf_tiles hw hPt
  rw [he] at hPtile
  have hsb := tiles_split_bounds hPtile
    (fun x hx => wf_pos_end (wf_child hw (by rw [he]; exact hx)))
  have hfind : P.children.find? (fun x =>
      decide (x.kind = SyntaxKind.SyntaxList) && decide (x.pos ≤ c.pos) &&
        decide (x.endP ≥ c.endP)) = some L := by
    rw [he]
    apply find?_of_split
    · simp only [Bool.and_eq_true, decide_eq_true_eq, ge_iff_le]
      exact ⟨⟨hk, hcb.1⟩, hcb.2⟩
    · intro x hx
      have hxe := hsb.2.1 x hx
      simp only [Bool.and_eq_false_iff, decide_eq_false_iff_not, not_le]
      right
      omega
  have hfc : findContainingList c (some P) = .ok (some L) := by
    rw [findContainingList, hfind]
  have hpre : ∀ (j : Nat) (hj : j < i),
      L.children.get ⟨j, lt_trans hj hi⟩ ≠ c := by
    intro j hj heq
    have h1 := tiles_get_lt hLtile hLpe j i hj hi
    rw [heq, ← hc] at h1
    omega
  have hidx : indexOf L.children c = (i : Int) := by
    rw [indexOf, indexOfAux_eq i hi hc.symm hpre 0]
    omega
  simp only [findListItemInfo, hfc, hidx]

/-- C8 witness: the second argument token `barg2` of the concrete call is
resolved to the argument list group at index 2 (arguments and separators
interleave in the realized list). -/
theorem c8_findListItemInfo_witness :
    wfB bcall = true ∧
    findListItemInfo barg2 (some bcall) =
      .ok { listItemIndex := 2, list := bargs } := by
  refine ⟨by decide, ?_⟩
  exact @c8_findListItemInfo bcall bargs barg2 2 (by decide) (by decide)
    (by decide) (by decide) (by decide) (by decide)

/-- C9: when no child of the node full-span-contains the offset (for example
a negative offset, or an offset at or past the end of every child),
`getTokenAtPosition` returns the node itself — at the top level the
`SourceFile` root, which is not a token; the function is total, so it never
throws and never returns an absent result. -/
theorem c9_getTokenAtPosition_no_match {root : Node} {p : Int}
    (h : ∀ c ∈ root.children, ¬(c.pos ≤ p ∧ p < c.endP))
    (hk : root.kind = SyntaxKind.SourceFile) :
    getTokenAtPosition root p = root ∧
    isToken (getTokenAtPosition root p) = false := by
  have hf : root.children.find? (fun c =>
      decide (c.pos ≤ p) && decide (p < c.endP)) = none := by
    apply List.find?_eq_none.mpr
    intro c hc
    simp only [Bool.and_eq_true, decide_eq_true_eq]
    exact h c hc
  have h1 := getTokenAtPosition_none hf
  refine ⟨h1, ?_⟩
  rw [h1]
  simp [isToken, hk, isTokenKind]

/-- C9 witness: the negative offset `-1` is outside every child's full span,
so resolution returns the `SourceFile` root itself. -/
theorem c9_getTokenAtPosition_no_match_witness :
    getTokenAtPosition wroot (-1) = wroot ∧
    isToken (getTokenAtPosition wroot (-1)) = false :=
  c9_getTokenAtPosition_no_match (by decide) (by decide)

/-- C10: `nodeHasTokens` treats an `ExpressionStatement` as token-bearing iff
its expression (first child) is; and any node either search returns is a
token — hence token-bearing — so neither `findPrecedingToken` nor
`findNextToken` ever returns an end-of-file token, an omitted or missing
placeholder, a list group (empty or not), or an `ExpressionStatement` (in
particular not one with a token-less expression). -/
theorem c10_nodeHasTokens_exclusions (pp ss ee : Int) (ex : Node)
    (rest : List Node) (pos : Int) (root r t parent u : Node) :
    nodeHasTokens (Node.mk SyntaxKind.ExpressionStatement pp ss ee
      (ex :: rest)) = nodeHasTokens ex ∧
    (findPrecedingToken pos root = Except.ok (some r) →
      isToken r = true ∧ nodeHasTokens r = true ∧
      r.kind ≠ SyntaxKind.EndOfFileToken ∧
      r.kind ≠ SyntaxKind.OmittedExpression ∧
      r.kind ≠ SyntaxKind.Missing ∧ r.kind ≠ SyntaxKind.SyntaxList ∧
      r.kind ≠ SyntaxKind.ExpressionStatement) ∧
    (findNextToken t parent = some u →
      isToken u = true ∧ nodeHasTokens u = true ∧
      u.kind ≠ SyntaxKind.EndOfFileToken ∧
      u.kind ≠ SyntaxKind.OmittedExpression ∧
      u.kind ≠ SyntaxKind.Missing ∧ u.kind ≠ SyntaxKind.SyntaxList ∧
      u.kind ≠ SyntaxKind.ExpressionStatement) := by
  refine ⟨rfl, ?_, ?_⟩
  · intro h
    have htok : isToken r = true := precFind_isToken pos r h
    obtain ⟨k, hkk⟩ := isToken_kind htok
    refine ⟨htok, hasTokens_of_token htok, ?_, ?_, ?_, ?_, ?_⟩ <;>
      simp [hkk]
  · intro h
    have htok : isToken u = true := nextFind_isToken u h
    obtain ⟨k, hkk⟩ := isToken_kind htok
    refine ⟨htok, hasTokens_of_token htok, ?_, ?_, ?_, ?_, ?_⟩ <;>
      simp [hkk]

/-- C10 witness: concrete instantiation — an expression statement wrapping
`bid`, the preceding-token search at offset 2 of the concrete file (which
yields token `wtok1`), and the next-token search from `wtok1` (which yields
`wtok2`). -/
theorem c10_nodeHasTokens_exclusions_witness :
    nodeHasTokens (Node.mk SyntaxKind.ExpressionStatement 0 0 1 [bid]) =
      nodeHasTokens bid ∧
    isToken wtok1 = true ∧ wtok1.kind ≠ SyntaxKind.EndOfFileToken ∧
    nodeHasTokens wtok2 = true := by
  have hprec : findPrecedingToken 2 wroot = Except.ok (some wtok1) := by
    rw [findPrecedingToken_char (by decide) (by decide)]
    decide
  have hnext : findNextToken wtok1 wroot = some wtok2 := by
    rw [show findNextToken wtok1 wroot = nextFind wtok1 wroot from rfl,
      nextFind_spec (by decide) desc_wtok1 (by decide)]
    decide
  have h := c10_nodeHasTokens_exclusions 0 0 1 bid [] 2 wroot wtok1 wtok1
    wroot wtok2
  exact ⟨h.1, (h.2.1 hprec).1, (h.2.1 hprec).2.2.1, (h.2.2 hnext).2.1⟩

end ts
